import Mathlib

/-!
Verification development for the `rec-calls` workspace symbol cache and
call-tree analyzers.

The development shallowly embeds the TypeScript sources:
  * `workspace-symbol-cache.ts` (symbol cache, method-name cache, definition
    resolution),
  * `MethodCallAnalysisService` (backward "who calls this" analysis),
  * `InternalMethodCallAnalysisService` (forward "what does this call"
    analysis).

Text is modelled as `List Char`; VS Code positions, ranges, URIs, locations
and document symbols are modelled structurally.  Asynchronous collaborator
services (document contents, symbol provider, definition provider) are
modelled as explicit environment records; a collaborator that can reject is
modelled with `Except`.  The bounded recursions of the two analyzers are
modelled with an explicit fuel argument that equals `maxDepth - currentDepth`:
with truncated subtraction, `fuel = 0` holds exactly when the source guard
`currentDepth >= this.maxDepth` fires, so the fuel pattern match is the
depth guard.
-/

/-- Text is a list of characters (the sources only manipulate ASCII source
code, so JavaScript UTF-16 lengths coincide with character counts). -/
abbrev Str := List Char

/-- Turn a Lean string literal into the character-list representation. -/
def str (s : String) : Str := s.data

/-- A zero-based line/column position, mirroring `vscode.Position`. -/
structure Pos where
  line : Nat
  character : Nat
deriving DecidableEq, Repr

/-- Mirror of `vscode.Position.isBeforeOrEqual`. -/
def Pos.isBeforeOrEqual (a b : Pos) : Bool :=
  a.line < b.line || (a.line == b.line && a.character ≤ b.character)

/-- A half-open text range with a start and an end position, mirroring
`vscode.Range` (`stop` stands for the `end` field, which is a Lean
keyword). -/
structure Range where
  start : Pos
  stop : Pos
deriving DecidableEq, Repr

/-- Mirror of `vscode.Range.isEqual`. -/
def Range.isEqual (a b : Range) : Bool :=
  a.start == b.start && a.stop == b.stop

/-- Mirror of `vscode.Range.contains` applied to a range argument:
the argument range lies between `start` and `end`. -/
def Range.containsRange (r other : Range) : Bool :=
  r.start.isBeforeOrEqual other.start && other.stop.isBeforeOrEqual r.stop

/-- A file identity carrying both renderings used by the sources:
`uri.toString()` (`toStr`) and `uri.fsPath` (`fsPath`). -/
structure Uri where
  toStr : Str
  fsPath : Str
deriving DecidableEq, Repr

/-- Mirror of `vscode.Location`. -/
structure Location where
  uri : Uri
  range : Range
deriving DecidableEq, Repr

/-- The symbol kinds the sources inspect; all remaining kinds are collapsed
into `Other`. -/
inductive SymbolKind where
  | Method
  | Function
  | Constructor
  | Class
  | Variable
  | Other
deriving DecidableEq, Repr

mutual
/-- Mirror of `vscode.DocumentSymbol`: a named node of a file outline with a
kind, a full range, a name-selection range and child symbols. -/
inductive DocumentSymbol where
  | mk (name : Str) (kind : SymbolKind) (range : Range) (selectionRange : Range)
      (children : Symbols)
  deriving Repr
/-- A forest of document symbols (`DocumentSymbol[]` in the sources). -/
inductive Symbols where
  | nil
  | cons (s : DocumentSymbol) (rest : Symbols)
  deriving Repr
end

def DocumentSymbol.name : DocumentSymbol → Str
  | .mk n _ _ _ _ => n

def DocumentSymbol.kind : DocumentSymbol → SymbolKind
  | .mk _ k _ _ _ => k

def DocumentSymbol.range : DocumentSymbol → Range
  | .mk _ _ r _ _ => r

def DocumentSymbol.selectionRange : DocumentSymbol → Range
  | .mk _ _ _ sr _ => sr

def DocumentSymbol.children : DocumentSymbol → Symbols
  | .mk _ _ _ _ c => c

/-- Build a symbol forest from a Lean list (construction convenience). -/
def Symbols.ofList : List DocumentSymbol → Symbols
  | [] => .nil
  | s :: rest => .cons s (Symbols.ofList rest)

def Symbols.isEmpty : Symbols → Bool
  | .nil => true
  | .cons _ _ => false

mutual
/-- Membership of a symbol anywhere in a symbol tree (the root itself or,
transitively, inside its children); used to state which symbol a search may
return. -/
inductive InSymbol : DocumentSymbol → DocumentSymbol → Prop where
  | here (s : DocumentSymbol) : InSymbol s s
  | child (s : DocumentSymbol) (n : Str) (k : SymbolKind) (r sr : Range)
      (cs : Symbols) : InForest s cs → InSymbol s (.mk n k r sr cs)
inductive InForest : DocumentSymbol → Symbols → Prop where
  | head (s t : DocumentSymbol) (rest : Symbols) : InSymbol s t → InForest s (.cons t rest)
  | tail (s t : DocumentSymbol) (rest : Symbols) : InForest s rest → InForest s (.cons t rest)
end

/-! ## Document offset and position arithmetic -/

/-- Offset of a line/column pair inside a document, mirroring
`TextDocument.offsetAt` for positions that exist in the document
(lines are separated by a single newline character). -/
def offsetOfLC (doc : Str) (line ch : Nat) : Nat :=
  match line with
  | 0 => ch
  | l + 1 =>
    let thisLine := doc.takeWhile (fun c => c != '\n')
    let rest := (doc.dropWhile (fun c => c != '\n')).drop 1
    thisLine.length + 1 + offsetOfLC rest l ch

def offsetOfPos (doc : Str) (p : Pos) : Nat := offsetOfLC doc p.line p.character

/-- Position of an offset inside a document, mirroring
`TextDocument.positionAt` (clamped at the end of the document). -/
def posOfOffsetAux : Str → Nat → Pos → Pos
  | _, 0, p => p
  | [], _ + 1, p => p
  | c :: rest, n + 1, p =>
    posOfOffsetAux rest n (if c == '\n' then ⟨p.line + 1, 0⟩ else ⟨p.line, p.character + 1⟩)

def posOfOffset (doc : Str) (off : Nat) : Pos := posOfOffsetAux doc off ⟨0, 0⟩

/-- Mirror of `TextDocument.getText(range)`: the slice of the document
between the offsets of the range's endpoints. -/
def getTextInRange (doc : Str) (r : Range) : Str :=
  (doc.take (offsetOfPos doc r.stop)).drop (offsetOfPos doc r.start)

/-! ## Lexical extraction of call-like matches

`InternalMethodCallAnalysisService.findAllMethodCallMatches` runs two global
regular expressions over a text:

  * pattern (a) `(?:^|[^.\w])(\w+)\s*\(` — a bare identifier immediately
    followed (after optional whitespace) by an opening parenthesis, not
    preceded by a dot or a word character;
  * pattern (b) `\.(\w+)\s*\(` — a property call `obj.method(`.

The JavaScript `exec` loop finds the leftmost match from the previous
match's end, so matches of one pattern never overlap.  The scanners below
reproduce exactly that behaviour, including the recorded index of the
method-name capture group. -/

def isWordChar (c : Char) : Bool :=
  c.isAlpha || c.isDigit || c == '_'

def isSpaceChar (c : Char) : Bool :=
  c == ' ' || c == '\n' || c == '\t' || c == '\r'

/-- Greedy `\w+\s*\(` starting at the head of the text: returns the word run
and the number of characters consumed up to and including the parenthesis. -/
def tailCallMatch (cs : Str) : Option (Str × Nat) :=
  if (cs.takeWhile isWordChar).isEmpty then none
  else
    match (cs.drop (cs.takeWhile isWordChar).length).dropWhile isSpaceChar with
    | '(' :: _ =>
      some (cs.takeWhile isWordChar,
        (cs.takeWhile isWordChar).length
          + ((cs.drop (cs.takeWhile isWordChar).length).takeWhile isSpaceChar).length + 1)
    | _ => none

/-- The `[^.\w]` alternative of pattern (a): the first character must be a
non-dot non-word character, then `\w+\s*\(` must follow. -/
def attemptAfterChar (cs : Str) : Option (Str × Nat × Nat) :=
  match cs with
  | [] => none
  | c :: rest =>
    if c == '.' || isWordChar c then none
    else
      match tailCallMatch rest with
      | some (w, k) => some (w, 1, k + 1)
      | none => none

/-- One attempt of pattern (a) at the current text position.  `isStart` is
true only at absolute index 0, where the `^` alternative applies; when the
`^` branch fails the regex engine falls back to the `[^.\w]` alternative at
the same position.  Returns the method name, the offset of the name inside
the match, and the total number of characters the match consumes. -/
def attemptBare (cs : Str) (isStart : Bool) : Option (Str × Nat × Nat) :=
  match (if isStart then tailCallMatch cs else none) with
  | some (w, k) => some (w, 0, k)
  | none => attemptAfterChar cs

/-- One attempt of pattern (b) at the current text position. -/
def attemptProp (cs : Str) : Option (Str × Nat × Nat) :=
  match cs with
  | '.' :: rest =>
    match tailCallMatch rest with
    | some (w, k) => some (w, 1, k + 1)
    | none => none
  | _ => none

theorem tailCallMatch_pos (cs : Str) (w : Str) (k : Nat)
    (h : tailCallMatch cs = some (w, k)) : 0 < k := by
  unfold tailCallMatch at h
  split at h
  · exact absurd h (by simp)
  · split at h
    · simp at h
      omega
    · exact absurd h (by simp)

theorem attemptAfterChar_pos (cs : Str) (w : Str) (off k : Nat)
    (h : attemptAfterChar cs = some (w, off, k)) : 0 < k := by
  unfold attemptAfterChar at h
  split at h
  · exact absurd h (by simp)
  · split at h
    · exact absurd h (by simp)
    · split at h
      · simp at h
        omega
      · exact absurd h (by simp)

theorem attemptBare_pos (cs : Str) (b : Bool) (w : Str) (off k : Nat)
    (h : attemptBare cs b = some (w, off, k)) : 0 < k := by
  unfold attemptBare at h
  split at h
  · rename_i w' k' h1
    simp at h
    obtain ⟨h2, h3, h4⟩ := h
    subst h4
    cases b with
    | false => simp at h1
    | true =>
      simp at h1
      exact tailCallMatch_pos cs w' _ h1
  · exact attemptAfterChar_pos cs w off k h

theorem attemptProp_pos (cs : Str) (w : Str) (off k : Nat)
    (h : attemptProp cs = some (w, off, k)) : 0 < k := by
  unfold attemptProp at h
  split at h
  · rename_i rest
    split at h
    · simp at h
      omega
    · exact absurd h (by simp)
  · exact absurd h (by simp)

/-- A single extracted match: the method name and the absolute character
offset of that name inside the scanned text. -/
structure MatchInfo where
  methodName : Str
  index : Nat
deriving DecidableEq, Repr

/-- Non-overlapping scan of pattern (a) over the text, mirroring the first
`exec` loop of `findAllMethodCallMatches`.  The extra `Nat` argument is a
structural size bound on the remaining text (every match or failed attempt
consumes at least one character); `scanBare` instantiates it with the text
length, which never runs out. -/
def scanBareAux : Nat → Str → Bool → Nat → List MatchInfo
  | 0, _, _, _ => []
  | _ + 1, [], _, _ => []
  | n + 1, c :: rest, isStart, idx =>
    match attemptBare (c :: rest) isStart with
    | some (w, off, k) =>
      ⟨w, idx + off⟩ :: scanBareAux n ((c :: rest).drop k) false (idx + k)
    | none => scanBareAux n rest false (idx + 1)

def scanBare (cs : Str) (isStart : Bool) (idx : Nat) : List MatchInfo :=
  scanBareAux cs.length cs isStart idx

/-- Non-overlapping scan of pattern (b) over the text, mirroring the second
`exec` loop of `findAllMethodCallMatches`; the `Nat` argument is the same
structural size bound as in `scanBareAux`. -/
def scanPropAux : Nat → Str → Nat → List MatchInfo
  | 0, _, _ => []
  | _ + 1, [], _ => []
  | n + 1, c :: rest, idx =>
    match attemptProp (c :: rest) with
    | some (w, off, k) =>
      ⟨w, idx + off⟩ :: scanPropAux n ((c :: rest).drop k) (idx + k)
    | none => scanPropAux n rest (idx + 1)

def scanProp (cs : Str) (idx : Nat) : List MatchInfo :=
  scanPropAux cs.length cs idx

/-- Mirror of `findAllMethodCallMatches`: pattern (a) matches followed by
pattern (b) matches. -/
def findAllMethodCallMatches (text : Str) : List MatchInfo :=
  scanBare text true 0 ++ scanProp text 0

/-- Stable insertion preserving the original order of equal indices,
mirroring `allMatches.sort((a, b) => a.index - b.index)`. -/
def insertByIndex (m : MatchInfo) : List MatchInfo → List MatchInfo
  | [] => [m]
  | n :: rest => if m.index ≤ n.index then m :: n :: rest else n :: insertByIndex m rest

def sortMatches : List MatchInfo → List MatchInfo
  | [] => []
  | m :: rest => insertByIndex m (sortMatches rest)

/-! ## Workspace symbol cache (`workspace-symbol-cache.ts`)

The cache maps `uri.toString()` keys to cached symbol trees
(`symbolCache`) and method names to definition records
(`methodNameCache`).  JavaScript `Map`s are modelled as insertion-ordered
association lists: `set` on an existing key replaces the value in place,
`set` on a fresh key appends, `delete` removes the entry. -/

/-- Mirror of `CachedMethodInfo` from `types.ts`. -/
structure CachedMethodInfo where
  methodName : Str
  uri : Uri
  symbol : DocumentSymbol
  filePath : Str
deriving Repr

/-- Mirror of `CachedSymbolInfo`. -/
structure CachedSymbolInfo where
  uri : Uri
  symbols : Symbols
  lastModified : Nat
  version : Nat
deriving Repr

/-- Insertion-ordered association list lookup (`Map.get`). -/
def alGet {α : Type} (m : List (Str × α)) (k : Str) : Option α :=
  (m.find? (fun p => p.1 == k)).map (fun p => p.2)

/-- Insertion-ordered association list update (`Map.set`): replace in place
when the key is present, append otherwise. -/
def alSet {α : Type} (m : List (Str × α)) (k : Str) (v : α) : List (Str × α) :=
  if m.any (fun p => p.1 == k) then
    m.map (fun p => if p.1 == k then (p.1, v) else p)
  else m ++ [(k, v)]

/-- The method-name cache: method name to every known definition record. -/
abbrev MethodNameCache := List (Str × List CachedMethodInfo)

/-- The whole mutable state of `WorkspaceSymbolCache`. -/
structure WorkspaceSymbolCacheState where
  symbolCache : List (Str × CachedSymbolInfo)
  methodNameCache : MethodNameCache

def emptyCacheState : WorkspaceSymbolCacheState := ⟨[], []⟩

/-- The external collaborators the cache consumes: the symbol provider
(`vscode.executeDocumentSymbolProvider`, `none` when it returns
null/undefined), the document version service and the clock. -/
structure CacheEnv where
  provider : Str → Option Symbols
  docVersion : Str → Nat
  now : Nat

/-- Mirror of `isMethodSymbol`. -/
def isMethodSymbol (s : DocumentSymbol) : Bool :=
  s.kind == SymbolKind.Method || s.kind == SymbolKind.Function ||
    s.kind == SymbolKind.Constructor

mutual
/-- Mirror of `extractMethodsFromSymbols`: preorder walk pushing a
`CachedMethodInfo` for every method/function/constructor symbol. -/
def extractMethodsFromSymbols (uri : Uri) (symbols : Symbols)
    (mnc : MethodNameCache) : MethodNameCache :=
  match symbols with
  | .nil => mnc
  | .cons s rest => extractMethodsFromSymbols uri rest (extractMethodsFromOne uri s mnc)
/-- Processing of a single symbol in `extractMethodsFromSymbols`. -/
def extractMethodsFromOne (uri : Uri) (s : DocumentSymbol)
    (mnc : MethodNameCache) : MethodNameCache :=
  match s with
  | .mk name kind range selectionRange children =>
    let mnc1 :=
      if isMethodSymbol (.mk name kind range selectionRange children) then
        let existingMethods := (alGet mnc name).getD []
        alSet mnc name
          (existingMethods ++
            [{ methodName := name, uri := uri,
               symbol := .mk name kind range selectionRange children,
               filePath := uri.fsPath }])
      else mnc
    extractMethodsFromSymbols uri children mnc1
end

/-- Mirror of `removeMethodsFromCache`: filter out every record attributed
to the file, deleting entries whose record list becomes empty. -/
def removeMethodsFromCache (uri : Uri) (mnc : MethodNameCache) : MethodNameCache :=
  mnc.filterMap (fun p =>
    match (p.2.filter (fun info => info.uri.toStr != uri.toStr)) with
    | [] => none
    | fs => some (p.1, fs))

/-- Mirror of `buildMethodNameCacheForFile`. -/
def buildMethodNameCacheForFile (uri : Uri) (symbols : Symbols)
    (mnc : MethodNameCache) : MethodNameCache :=
  extractMethodsFromSymbols uri symbols (removeMethodsFromCache uri mnc)

/-- Mirror of `updateFileCache` / `indexSingleFile`: when the provider
returns a symbol forest, replace the file's `symbolCache` entry and rebuild
its contribution to the method-name cache; otherwise leave the state
unchanged (the catch/`no symbols` branches). -/
def updateFileCache (env : CacheEnv) (st : WorkspaceSymbolCacheState)
    (uri : Uri) : WorkspaceSymbolCacheState :=
  match env.provider uri.toStr with
  | none => st
  | some symbols =>
    { symbolCache :=
        alSet st.symbolCache uri.toStr
          { uri := uri, symbols := symbols, lastModified := env.now,
            version := env.docVersion uri.toStr },
      methodNameCache := buildMethodNameCacheForFile uri symbols st.methodNameCache }

/-- Mirror of `invalidateFileCache`: only acts when the file has a
`symbolCache` entry, then removes it together with the file's method
records. -/
def invalidateFileCache (st : WorkspaceSymbolCacheState) (uri : Uri) :
    WorkspaceSymbolCacheState :=
  if st.symbolCache.any (fun p => p.1 == uri.toStr) then
    { symbolCache := st.symbolCache.filter (fun p => p.1 != uri.toStr),
      methodNameCache := removeMethodsFromCache uri st.methodNameCache }
  else st

/-- Mirror of `findMethodsByName` (`methodNameCache.get(name) || []`). -/
def findMethodsByName (mnc : MethodNameCache) (methodName : Str) :
    List CachedMethodInfo :=
  (alGet mnc methodName).getD []

/-- Characters of `fsPath` strictly before its last `/`
(`fsPath.substring(0, fsPath.lastIndexOf('/'))`; the empty string when
there is no slash, matching `substring(0, -1)`). -/
def dirOfPath (p : Str) : Str :=
  match p.reverse.dropWhile (fun c => c != '/') with
  | [] => []
  | _ :: before => before.reverse

/-- Mirror of `WorkspaceSymbolCache.findMethodDefinition`: zero candidates
give `none`; a unique candidate is returned directly; with several
candidates and a context file, a same-file candidate wins, then the first
candidate whose `filePath` starts with the context directory string, then
the first candidate. -/
def findMethodDefinition (mnc : MethodNameCache) (methodName : Str)
    (contextUri : Option Uri) : Option CachedMethodInfo :=
  match findMethodsByName mnc methodName with
  | [] => none
  | [m] => some m
  | m0 :: m1 :: rest =>
    match contextUri with
    | none => some m0
    | some c =>
      let methods := m0 :: m1 :: rest
      match methods.find? (fun m => m.uri.toStr == c.toStr) with
      | some sameFile => some sameFile
      | none =>
        match methods.find? (fun m => (dirOfPath c.fsPath).isPrefixOf m.filePath) with
        | some sameDir => some sameDir
        | none => some m0

/-! ## Built-in name filter (`InternalMethodCallAnalysisService.isBuiltInOrCommon`) -/

/-- The fixed denylist of `isBuiltInOrCommon`. -/
def builtInMethods : List Str :=
  [str ("console"), str ("log"), str ("error"), str ("warn"), str ("info"),
   str ("debug"),
   str ("push"), str ("pop"), str ("shift"), str ("unshift"), str ("slice"),
   str ("splice"),
   str ("map"), str ("filter"), str ("reduce"), str ("forEach"), str ("find"),
   str ("some"), str ("every"),
   str ("toString"), str ("valueOf"), str ("hasOwnProperty"),
   str ("isPrototypeOf"),
   str ("length"), str ("indexOf"), str ("lastIndexOf"), str ("charAt"),
   str ("charCodeAt"),
   str ("if"), str ("else"), str ("for"), str ("while"), str ("do"),
   str ("switch"), str ("case"), str ("return"),
   str ("var"), str ("let"), str ("const"), str ("function"), str ("class"),
   str ("import"), str ("export"),
   str ("try"), str ("catch"), str ("finally"), str ("throw"), str ("new"),
   str ("delete"), str ("typeof"),
   str ("instanceof"), str ("in"), str ("of"), str ("true"), str ("false"),
   str ("null"), str ("undefined")]

/-- Mirror of `isBuiltInOrCommon`: in the denylist after lower-casing, or
shorter than two characters, or starting with a digit. -/
def isBuiltInOrCommon (methodName : Str) : Bool :=
  builtInMethods.contains (methodName.map Char.toLower) ||
    methodName.length < 2 ||
    (match methodName with
     | c :: _ => c.isDigit
     | [] => false)

/-! ## Reference index

`MethodCallAnalysisService.searchCachedReferences` consults
`symbolCache.findMethodReferences` and `getCacheStats().totalReferences`.
Those members are not part of the sources under `src/`; §4.2 of the
specification describes them, so they are modelled from the spec here. -/

/-- Mirror of `MethodReferenceInfo` from `types.ts`. -/
structure MethodReferenceInfo where
  methodName : Str
  uri : Uri
  range : Range
  filePath : Str
deriving Repr

/-- Modelled from the spec: the Reference Index is built by the same
lexical extraction rule as the forward analyzer (§4.2 "for each occurrence
of an identifier immediately followed by an opening call parenthesis,
record a MethodReferenceRecord", reusing §4.4's extraction including its
built-in-name filter); each surviving match becomes one record whose range
covers the method-name occurrence.  The implementation of this builder
(`WorkspaceSymbolCache`'s reference cache) is absent from `src/`. -/
def buildFileReferences (uri : Uri) (text : Str) : List MethodReferenceInfo :=
  (sortMatches (findAllMethodCallMatches text)).filterMap (fun m =>
    if m.methodName.isEmpty || isBuiltInOrCommon m.methodName then none
    else
      some { methodName := m.methodName, uri := uri,
             range := ⟨posOfOffset text m.index,
                      posOfOffset text (m.index + m.methodName.length)⟩,
             filePath := uri.fsPath })

/-! ## Searching the workspace for references
(`MethodCallAnalysisService.searchWorkspaceForMethod` and helpers) -/

/-- Spec-modelled lookup in the reference index
(`symbolCache.findMethodReferences`): all recorded references to a method
name, in recording order. -/
def findMethodReferences (cache : List MethodReferenceInfo) (methodName : Str) :
    List MethodReferenceInfo :=
  cache.filter (fun r => r.methodName == methodName)

/-- Spec-modelled `getCacheStats().totalReferences`: the number of recorded
reference records. -/
def totalReferences (cache : List MethodReferenceInfo) : Nat := cache.length

/-- Mirror of `string.includes`: `needle` occurs contiguously in `hay`. -/
def containsSub (hay needle : Str) : Bool :=
  match hay with
  | [] => needle.isEmpty
  | c :: rest => needle.isPrefixOf (c :: rest) || containsSub rest needle

/-- The state `searchWorkspaceForMethod` reads: the (spec-modelled)
reference cache, the method-name cache, the workspace file enumeration and
the per-file cached symbols. -/
structure SearchEnv where
  referenceCache : List MethodReferenceInfo
  mnc : MethodNameCache
  files : List Uri
  symbolsFor : Str → Symbols

/-- Mirror of `searchCachedReferences`: cached reference locations followed
by the definition locations from the method-name cache. -/
def searchCachedReferences (se : SearchEnv) (methodName : Str) : List Location :=
  (findMethodReferences se.referenceCache methodName).map
      (fun ref => { uri := ref.uri, range := ref.range })
    ++ (findMethodsByName se.mnc methodName).map
      (fun methodDef => { uri := methodDef.uri,
                          range := methodDef.symbol.selectionRange })

mutual
/-- Mirror of `findMethodCallsInSymbols`: push a location for every symbol
whose name contains the method name, walking the whole forest. -/
def findMethodCallsInSymbols (methodName : Str) (symbols : Symbols) (uri : Uri) :
    List Location :=
  match symbols with
  | .nil => []
  | .cons s rest =>
    findMethodCallsInOneSymbol methodName s uri
      ++ findMethodCallsInSymbols methodName rest uri
/-- Processing of one symbol in `findMethodCallsInSymbols`. -/
def findMethodCallsInOneSymbol (methodName : Str) (s : DocumentSymbol) (uri : Uri) :
    List Location :=
  match s with
  | .mk n _ _ sr children =>
    (if containsSub n methodName then [{ uri := uri, range := sr }] else [])
      ++ findMethodCallsInSymbols methodName children uri
end

/-- Mirror of `searchCachedSymbols`: definition locations from the
method-name cache, then the symbol-name scan over every workspace file. -/
def searchCachedSymbols (se : SearchEnv) (methodName : Str) : List Location :=
  (findMethodsByName se.mnc methodName).map
      (fun methodDef => { uri := methodDef.uri,
                          range := methodDef.symbol.selectionRange })
    ++ se.files.foldl
        (fun locations file =>
          locations ++ findMethodCallsInSymbols methodName (se.symbolsFor file.toStr) file)
        []

/-- Mirror of `searchWorkspaceForMethod`: cached references when the
reference cache is populated, the symbol-based fallback otherwise. -/
def searchWorkspaceForMethod (se : SearchEnv) (methodName : Str) : List Location :=
  if 0 < totalReferences se.referenceCache then searchCachedReferences se methodName
  else searchCachedSymbols se methodName

/-! ## Backward analyzer (`MethodCallAnalysisService`) -/

/-- Mirror of `MethodCallInfo` from `types.ts` (a node of the backward
call tree). -/
inductive MethodCallInfo where
  | mk (methodName : Str) (uri : Uri) (range : Range)
      (callerMethodName : Option Str) (depth : Nat)
      (children : List MethodCallInfo)
  deriving Repr

def MethodCallInfo.methodName : MethodCallInfo → Str
  | .mk n _ _ _ _ _ => n

def MethodCallInfo.uri : MethodCallInfo → Uri
  | .mk _ u _ _ _ _ => u

def MethodCallInfo.range : MethodCallInfo → Range
  | .mk _ _ r _ _ _ => r

def MethodCallInfo.callerMethodName : MethodCallInfo → Option Str
  | .mk _ _ _ c _ _ => c

def MethodCallInfo.depth : MethodCallInfo → Nat
  | .mk _ _ _ _ d _ => d

def MethodCallInfo.children : MethodCallInfo → List MethodCallInfo
  | .mk _ _ _ _ _ cs => cs

/-- Replace the children list (the only field the worker mutates). -/
def MethodCallInfo.withChildren : MethodCallInfo → List MethodCallInfo → MethodCallInfo
  | .mk n u r c d _, cs => .mk n u r c d cs

/-- The `processedMethods` key of the backward analyzer:
`uri:startLine:startCharacter:methodName` (kept structural rather than
colon-joined). -/
abbrev BKey := Str × Nat × Nat × Str

abbrev BVis := List BKey

/-- The collaborators of the backward worker: the outcome of
`searchWorkspaceForMethod` per method name and the cached symbols per file
(`symbolCache.getSymbolsForFile`, which handles its own failures and is
total). -/
structure BackEnv where
  refsFor : Str → List Location
  symbolsFor : Str → Symbols

mutual
/-- Mirror of `findContainingMethod`: the first symbol in preorder of kind
Method/Function/Constructor whose range contains the reference; children of
a matching symbol are never visited. -/
def findContainingMethod (range : Range) (symbols : Symbols) :
    Option DocumentSymbol :=
  match symbols with
  | .nil => none
  | .cons s rest =>
    match findContainingMethodOne range s with
    | some found => some found
    | none => findContainingMethod range rest
/-- Processing of one symbol in `findContainingMethod`. -/
def findContainingMethodOne (range : Range) (s : DocumentSymbol) :
    Option DocumentSymbol :=
  match s with
  | .mk n k r sr children =>
    if (k == SymbolKind.Method || k == SymbolKind.Function ||
        k == SymbolKind.Constructor) && r.containsRange range then
      some (.mk n k r sr children)
    else findContainingMethod range children
end

/-- Grouping of references by `ref.uri.toString()` in first-occurrence
order with per-file reference order preserved, mirroring the `callsByFile`
`Map`. -/
def addToGroup : List (Uri × List Location) → Location → List (Uri × List Location)
  | [], ref => [(ref.uri, [ref])]
  | (u, ls) :: rest, ref =>
    if u.toStr == ref.uri.toStr then (u, ls ++ [ref]) :: rest
    else (u, ls) :: addToGroup rest ref

def groupByFile (refs : List Location) : List (Uri × List Location) :=
  refs.foldl addToGroup []

/-- The per-file reference filter of `findMethodReferencesWorkspace`:
drop the node's own definition site (same location, or a location
containing / contained in the node's range, in the node's file). -/
def filterOutDefinition (fileUri : Uri) (ci : MethodCallInfo)
    (locations : List Location) : List Location :=
  locations.filter (fun loc =>
    let isSameLocation := fileUri.toStr == ci.uri.toStr && loc.range.isEqual ci.range
    let isDefinitionRange := fileUri.toStr == ci.uri.toStr &&
      (loc.range.containsRange ci.range || ci.range.containsRange loc.range)
    !isSameLocation && !isDefinitionRange)

/-- The inner reference loop of `findMethodReferencesWorkspace`: attribute
each reference to its containing method, deduplicate against the children
collected so far, expand the new child through `recur` and append it. -/
def processLocations
    (recur : MethodCallInfo → Nat → BVis → MethodCallInfo × BVis)
    (fileUri : Uri) (symbols : Symbols) :
    List Location → MethodCallInfo → Nat → BVis → MethodCallInfo × BVis
  | [], ci, _, vis => (ci, vis)
  | location :: restLocs, ci, currentDepth, vis =>
    match findContainingMethod location.range symbols with
    | none => processLocations recur fileUri symbols restLocs ci currentDepth vis
    | some callingMethod =>
      match ci.children.find? (fun child =>
          child.methodName == callingMethod.name &&
          child.uri.toStr == fileUri.toStr &&
          child.range.isEqual callingMethod.selectionRange) with
      | some _ => processLocations recur fileUri symbols restLocs ci currentDepth vis
      | none =>
        let childCallInfo : MethodCallInfo :=
          .mk callingMethod.name fileUri callingMethod.selectionRange
            (some ci.methodName) (currentDepth + 1) []
        let expanded := recur childCallInfo (currentDepth + 1) vis
        let ci' := ci.withChildren (ci.children ++ [expanded.1])
        processLocations recur fileUri symbols restLocs ci' currentDepth expanded.2

/-- The per-file loop of `findMethodReferencesWorkspace`: filter out the
definition site, skip files without symbols, process the remaining
references. -/
def processFiles
    (recur : MethodCallInfo → Nat → BVis → MethodCallInfo × BVis)
    (env : BackEnv) :
    List (Uri × List Location) → MethodCallInfo → Nat → BVis → MethodCallInfo × BVis
  | [], ci, _, vis => (ci, vis)
  | (fileUri, locations) :: restFiles, ci, currentDepth, vis =>
    let filteredLocations := filterOutDefinition fileUri ci locations
    if filteredLocations.isEmpty then
      processFiles recur env restFiles ci currentDepth vis
    else
      let symbols := env.symbolsFor fileUri.toStr
      if symbols.isEmpty then
        processFiles recur env restFiles ci currentDepth vis
      else
        let processed :=
          processLocations recur fileUri symbols filteredLocations ci currentDepth vis
        processFiles recur env restFiles processed.1 currentDepth processed.2

/-- Mirror of `findMethodReferencesWorkspace`.  The fuel equals
`maxDepth - currentDepth`, so `fuel = 0` is exactly the source's depth
guard `currentDepth >= this.maxDepth`; then comes the `processedMethods`
guard and registration, the reference query, the grouping by file and the
two processing loops. -/
def findMethodReferencesWorkspace (env : BackEnv) (fuel : Nat) :
    MethodCallInfo → Nat → BVis → MethodCallInfo × BVis :=
  match fuel with
  | 0 => fun ci _ vis => (ci, vis)
  | Nat.succ fuelLeft => fun ci currentDepth vis =>
    let methodKey : BKey :=
      (ci.uri.toStr, ci.range.start.line, ci.range.start.character, ci.methodName)
    if vis.contains methodKey then (ci, vis)
    else
      let vis1 := methodKey :: vis
      let references := env.refsFor ci.methodName
      if references.isEmpty then (ci, vis1)
      else
        processFiles (findMethodReferencesWorkspace env fuelLeft) env
          (groupByFile references) ci currentDepth vis1

/-- Mirror of `analyzeMethodCalls`: clear `processedMethods`, build the
root node at depth 0 from the symbol's selection range and expand it.  The
worker handles every collaborator failure internally, so the surrounding
`try`/`catch` never produces the `null` branch; the final `processedMethods`
set is returned alongside to model the instance state. -/
def analyzeMethodCalls (env : BackEnv) (maxDepth : Nat)
    (methodSymbol : DocumentSymbol) (uri : Uri) :
    Option MethodCallInfo × BVis :=
  let rootCallInfo : MethodCallInfo :=
    .mk methodSymbol.name uri methodSymbol.selectionRange none 0 []
  let expanded := findMethodReferencesWorkspace env maxDepth rootCallInfo 0 []
  (some expanded.1, expanded.2)

/-- The mutable instance state of `MethodCallAnalysisService`. -/
structure MethodCallServiceState where
  maxDepth : Nat
  processedMethods : BVis

/-- Mirror of `setMaxDepth`: `Math.max(1, Math.min(depth, 10))`. -/
def setMaxDepth (depth : Int) : Int := max 1 (min depth 10)

/-- A full service call: run `analyzeMethodCalls` against the instance
state, leaving the configured depth unchanged and the `processedMethods`
set as the run left it. -/
def serviceAnalyzeMethodCalls (env : BackEnv) (svc : MethodCallServiceState)
    (methodSymbol : DocumentSymbol) (uri : Uri) :
    Option MethodCallInfo × MethodCallServiceState :=
  let r := analyzeMethodCalls env svc.maxDepth methodSymbol uri
  (r.1, { maxDepth := svc.maxDepth, processedMethods := r.2 })

/-! ## Forward analyzer (`InternalMethodCallAnalysisService`) -/

mutual
/-- Mirror of `InternalMethodCallInfo` from `types.ts` (a node of the
forward call tree). -/
inductive InternalMethodCallInfo where
  | mk (methodName : Str) (uri : Uri) (range : Range)
      (definitionUri : Option Uri) (definitionRange : Option Range)
      (depth : Nat) (children : InternalCalls)
      (isResolved : Bool) (isRecursive : Bool)
  deriving Repr
/-- A list of forward call nodes (`InternalMethodCallInfo[]`). -/
inductive InternalCalls where
  | nil
  | cons (c : InternalMethodCallInfo) (rest : InternalCalls)
  deriving Repr
end

def InternalMethodCallInfo.methodName : InternalMethodCallInfo → Str
  | .mk n _ _ _ _ _ _ _ _ => n

def InternalMethodCallInfo.uri : InternalMethodCallInfo → Uri
  | .mk _ u _ _ _ _ _ _ _ => u

def InternalMethodCallInfo.range : InternalMethodCallInfo → Range
  | .mk _ _ r _ _ _ _ _ _ => r

def InternalMethodCallInfo.definitionUri : InternalMethodCallInfo → Option Uri
  | .mk _ _ _ du _ _ _ _ _ => du

def InternalMethodCallInfo.definitionRange : InternalMethodCallInfo → Option Range
  | .mk _ _ _ _ dr _ _ _ _ => dr

def InternalMethodCallInfo.depth : InternalMethodCallInfo → Nat
  | .mk _ _ _ _ _ d _ _ _ => d

def InternalMethodCallInfo.children : InternalMethodCallInfo → InternalCalls
  | .mk _ _ _ _ _ _ cs _ _ => cs

def InternalMethodCallInfo.isResolved : InternalMethodCallInfo → Bool
  | .mk _ _ _ _ _ _ _ res _ => res

def InternalMethodCallInfo.isRecursive : InternalMethodCallInfo → Bool
  | .mk _ _ _ _ _ _ _ _ rec => rec

def InternalCalls.append : InternalCalls → InternalCalls → InternalCalls
  | .nil, l => l
  | .cons c rest, l => .cons c (rest.append l)

/-- Mirror of `Array.prototype.shift()` followed by discarding the shifted
element: drop the first node (`callInfo.children.shift()`). -/
def InternalCalls.drop1 : InternalCalls → InternalCalls
  | .nil => .nil
  | .cons _ rest => rest

def InternalCalls.length : InternalCalls → Nat
  | .nil => 0
  | .cons _ rest => 1 + rest.length

mutual
/-- Mirror of `countTotalCalls`: every node of the forest, children
included. -/
def countTotalCalls : InternalCalls → Nat
  | .nil => 0
  | .cons c rest => 1 + countCallChildren c + countTotalCalls rest
/-- Node count of one node's children. -/
def countCallChildren : InternalMethodCallInfo → Nat
  | .mk _ _ _ _ _ _ children _ _ => countTotalCalls children
end

/-- The duplicate key of `removeDuplicateCalls`:
`methodName:startLine:startCharacter:uri` (kept structural). -/
abbrev DupKey := Str × Nat × Nat × Str

def removeDuplicateCallsAux : InternalCalls → List DupKey → InternalCalls
  | .nil, _ => .nil
  | .cons c rest, seen =>
    let key : DupKey :=
      (c.methodName, c.range.start.line, c.range.start.character, c.uri.toStr)
    if seen.contains key then removeDuplicateCallsAux rest seen
    else .cons c (removeDuplicateCallsAux rest (key :: seen))

/-- Mirror of `removeDuplicateCalls`: keep the first occurrence of every
position-based key. -/
def removeDuplicateCalls (calls : InternalCalls) : InternalCalls :=
  removeDuplicateCallsAux calls []

mutual
/-- Mirror of `findSymbolAtRange`: first symbol whose selection range
equals the target, else — within a symbol whose range contains the target —
a matching descendant or, failing that, the symbol itself. -/
def findSymbolAtRange (symbols : Symbols) (range : Range) :
    Option DocumentSymbol :=
  match symbols with
  | .nil => none
  | .cons s rest =>
    match findSymbolAtRangeOne s range with
    | some found => some found
    | none => findSymbolAtRange rest range
/-- Processing of one symbol in `findSymbolAtRange`. -/
def findSymbolAtRangeOne (s : DocumentSymbol) (range : Range) :
    Option DocumentSymbol :=
  match s with
  | .mk n k r sr children =>
    if sr.isEqual range || r.containsRange range then
      if sr.isEqual range then some (.mk n k r sr children)
      else
        match findSymbolAtRange children range with
        | some found => some found
        | none => some (.mk n k r sr children)
    else none
end

/-- The `processedMethods` key of the forward analyzer: either
`uri:line:character` of a resolved definition or `unknown:name`. -/
inductive FwdKey where
  | defKey (uriStr : Str) (line character : Nat)
  | unknownKey (name : Str)
deriving DecidableEq, Repr

abbrev FVis := List FwdKey

/-- The collaborators of the forward analyzer: document contents
(`openTextDocument`, which can reject), cached symbols per file, the
method-name cache behind `symbolCache.findMethodDefinition`, and the
`executeDefinitionProvider` fallback results per file. -/
structure FwdEnv where
  docText : Str → Except Unit Str
  symbolsFor : Str → Symbols
  mnc : MethodNameCache
  hostDefs : Str → List (Uri × Range)

/-- Mirror of `InternalMethodCallAnalysisService.findMethodDefinition`:
the cache lookup first (the resolved symbol's selection range), then the
first result of the definition-provider fallback. -/
def fwdFindMethodDefinition (env : FwdEnv) (methodName : Str) (currentUri : Uri) :
    Option (Uri × Range) :=
  match findMethodDefinition env.mnc methodName (some currentUri) with
  | some methodInfo => some (methodInfo.uri, methodInfo.symbol.selectionRange)
  | none =>
    match env.hostDefs currentUri.toStr with
    | d :: _ => some d
    | [] => none

/-- Mirror of `InternalCallAnalysisResult` from `types.ts`. -/
structure InternalCallAnalysisResult where
  rootMethod : Str
  rootUri : Uri
  rootRange : Range
  calls : InternalCalls
  totalCallsFound : Nat
  analysisDepth : Nat
deriving Repr

/-- Expansion of one resolved match in `findMethodCallsInText`: nothing for
an unresolved or recursive call; otherwise register the key in the run-wide
`processedMethods` set, open the definition's document (a rejection is the
caught exception that leaves the children empty), locate the definition's
symbol, recurse into its body text at `currentDepth + 1` and discard the
first child (`callInfo.children.shift()`). -/
def expandDefinition
    (recur : Str → Range → Uri → Nat → FVis → (Except Unit InternalCalls) × FVis)
    (env : FwdEnv) (currentDepth : Nat) (definition : Option (Uri × Range))
    (methodKey : FwdKey) (isRecursive : Bool) (vis : FVis) :
    InternalCalls × FVis :=
  match definition with
  | none => (.nil, vis)
  | some (defUri, defRange) =>
    if isRecursive then (.nil, vis)
    else
      match env.docText defUri.toStr with
      | Except.error _ => (.nil, methodKey :: vis)
      | Except.ok defDocument =>
        match findSymbolAtRange (env.symbolsFor defUri.toStr) defRange with
        | none => (.nil, methodKey :: vis)
        | some defMethod =>
          match recur (getTextInRange defDocument defMethod.range) defMethod.range
              defUri (currentDepth + 1) (methodKey :: vis) with
          | (Except.ok childCalls, visR) => (childCalls.drop1, visR)
          | (Except.error _, visR) => (.nil, visR)

/-- The `processedMethods` key of one match: position of the resolved
definition, or the name-based fallback. -/
def matchKey (definition : Option (Uri × Range)) (methodName : Str) : FwdKey :=
  match definition with
  | some (defUri, defRange) =>
    .defKey defUri.toStr defRange.start.line defRange.start.character
  | none => .unknownKey methodName

/-- The match loop of `findMethodCallsInText`: skip filtered names, locate
the occurrence in the document, resolve the definition, detect recursion
against the run-wide `processedMethods` set, expand resolved non-recursive
definitions, push the node, and at depth 0 break after the first pushed
node. -/
def processMatches
    (recur : Str → Range → Uri → Nat → FVis → (Except Unit InternalCalls) × FVis)
    (env : FwdEnv) (document : Str) (baseRange : Range) (uri : Uri)
    (currentDepth : Nat) :
    List MatchInfo → InternalCalls → FVis → InternalCalls × FVis
  | [], calls, vis => (calls, vis)
  | m :: rest, calls, vis =>
    if m.methodName.isEmpty || isBuiltInOrCommon m.methodName then
      processMatches recur env document baseRange uri currentDepth rest calls vis
    else
      let startOffset := offsetOfPos document baseRange.start + m.index
      let endOffset := startOffset + m.methodName.length
      let callRange : Range :=
        ⟨posOfOffset document startOffset, posOfOffset document endOffset⟩
      let definition := fwdFindMethodDefinition env m.methodName uri
      let methodKey := matchKey definition m.methodName
      let isRecursive := vis.contains methodKey
      let expanded :=
        expandDefinition recur env currentDepth definition methodKey isRecursive vis
      let callInfo : InternalMethodCallInfo :=
        .mk m.methodName uri callRange
          (match definition with | some (du, _) => some du | none => none)
          (match definition with | some (_, dr) => some dr | none => none)
          currentDepth expanded.1 definition.isSome isRecursive
      let calls1 := calls.append (.cons callInfo .nil)
      if currentDepth < 1 then (calls1, expanded.2)
      else processMatches recur env document baseRange uri currentDepth rest calls1 expanded.2

/-- Mirror of `findMethodCallsInText`.  The fuel equals
`maxDepth - currentDepth` (so `fuel = 0` is the source's depth guard, which
fires before the document is opened); then the document of the node's file
is opened (a rejection is the propagated exception), all matches are
extracted and sorted by position, the match loop runs, and duplicates are
removed from the result. -/
def findMethodCallsInText (env : FwdEnv) (fuel : Nat) :
    Str → Range → Uri → Nat → FVis → (Except Unit InternalCalls) × FVis :=
  match fuel with
  | 0 => fun _ _ _ _ vis => (Except.ok .nil, vis)
  | Nat.succ fuelLeft => fun text baseRange uri currentDepth vis =>
    match env.docText uri.toStr with
    | Except.error e => (Except.error e, vis)
    | Except.ok document =>
      let allMatches := sortMatches (findAllMethodCallMatches text)
      let processed :=
        processMatches (findMethodCallsInText env fuelLeft) env document baseRange
          uri currentDepth allMatches .nil vis
      (Except.ok (removeDuplicateCalls processed.1), processed.2)

/-- Mirror of `analyzeInternalMethodCalls`: clear `processedMethods`, open
the root document (a rejection reaches the top-level catch and yields
`none`), take the method's range text and scan it at depth 0; an exception
escaping the scan is also caught into `none`.  The final `processedMethods`
set is returned alongside to model the instance state. -/
def analyzeInternalMethodCalls (env : FwdEnv) (maxDepth : Nat)
    (methodSymbol : DocumentSymbol) (uri : Uri) :
    Option InternalCallAnalysisResult × FVis :=
  match env.docText uri.toStr with
  | Except.error _ => (none, [])
  | Except.ok document =>
    let methodText := getTextInRange document methodSymbol.range
    match findMethodCallsInText env maxDepth methodText methodSymbol.range uri 0 [] with
    | (Except.error _, vis) => (none, vis)
    | (Except.ok internalCalls, vis) =>
      (some { rootMethod := methodSymbol.name, rootUri := uri,
              rootRange := methodSymbol.selectionRange,
              calls := internalCalls,
              totalCallsFound := countTotalCalls internalCalls,
              analysisDepth := maxDepth }, vis)

/-- The mutable instance state of `InternalMethodCallAnalysisService`. -/
structure InternalServiceState where
  maxDepth : Nat
  processedMethods : FVis

/-- A full forward service call against the instance state. -/
def serviceAnalyzeInternalMethodCalls (env : FwdEnv)
    (svc : InternalServiceState) (methodSymbol : DocumentSymbol) (uri : Uri) :
    Option InternalCallAnalysisResult × InternalServiceState :=
  let r := analyzeInternalMethodCalls env svc.maxDepth methodSymbol uri
  (r.1, { maxDepth := svc.maxDepth, processedMethods := r.2 })

/-! ## Concrete workspaces for the scenario claims -/

/-- File identity of the backward-scenario example file. -/
def uriEx : Uri := ⟨str ("file:///ws/ex.ts"), str ("/ws/ex.ts")⟩

/-- Source text of the backward scenario: `open` is a leaf, `openNow` calls
`open`, `quickStart` calls `openNow` (mirroring `RecursiveCallExample`). -/
def textEx : Str :=
  str ("class C \x7b\n  open() \x7b\n    let y = 1;\n  \x7d\n  openNow() \x7b\n    this.open();\n  \x7d\n  quickStart() \x7b\n    this.openNow();\n  \x7d\n\x7d\n")

def openSym : DocumentSymbol :=
  .mk (str ("open")) .Method ⟨⟨1, 2⟩, ⟨3, 3⟩⟩ ⟨⟨1, 2⟩, ⟨1, 6⟩⟩ .nil

def openNowSym : DocumentSymbol :=
  .mk (str ("openNow")) .Method ⟨⟨4, 2⟩, ⟨6, 3⟩⟩ ⟨⟨4, 2⟩, ⟨4, 9⟩⟩ .nil

def quickStartSym : DocumentSymbol :=
  .mk (str ("quickStart")) .Method ⟨⟨7, 2⟩, ⟨9, 3⟩⟩ ⟨⟨7, 2⟩, ⟨7, 12⟩⟩ .nil

/-- The symbol outline of `textEx`: one class containing three methods. -/
def symsEx : Symbols :=
  .cons (.mk (str ("C")) .Class ⟨⟨0, 0⟩, ⟨10, 1⟩⟩ ⟨⟨0, 6⟩, ⟨0, 7⟩⟩
    (.cons openSym (.cons openNowSym (.cons quickStartSym .nil)))) .nil

def cacheEnvEx : CacheEnv :=
  { provider := fun u => if u == uriEx.toStr then some symsEx else none,
    docVersion := fun _ => 1, now := 0 }

/-- Method-name cache of the backward scenario, built by indexing the
example file. -/
def mncEx : MethodNameCache :=
  (updateFileCache cacheEnvEx emptyCacheState uriEx).methodNameCache

def symsForEx : Str → Symbols := fun u => if u == uriEx.toStr then symsEx else .nil

def searchEnvEx : SearchEnv :=
  { referenceCache := buildFileReferences uriEx textEx,
    mnc := mncEx, files := [uriEx], symbolsFor := symsForEx }

/-- Backward-analysis environment of the `open`/`openNow`/`quickStart`
scenario. -/
def envC2 : BackEnv :=
  { refsFor := fun methodName => searchWorkspaceForMethod searchEnvEx methodName,
    symbolsFor := symsForEx }

/-- File identity of the mutual-recursion example file. -/
def uriAB : Uri := ⟨str ("file:///ws/ab.ts"), str ("/ws/ab.ts")⟩

/-- Source text of the cycle scenario: `alpha` and `beta` call each
other. -/
def textAB : Str :=
  str ("class D \x7b\n  alpha() \x7b\n    this.beta();\n  \x7d\n  beta() \x7b\n    this.alpha();\n  \x7d\n\x7d\n")

def alphaSym : DocumentSymbol :=
  .mk (str ("alpha")) .Method ⟨⟨1, 2⟩, ⟨3, 3⟩⟩ ⟨⟨1, 2⟩, ⟨1, 7⟩⟩ .nil

def betaSym : DocumentSymbol :=
  .mk (str ("beta")) .Method ⟨⟨4, 2⟩, ⟨6, 3⟩⟩ ⟨⟨4, 2⟩, ⟨4, 6⟩⟩ .nil

def symsAB : Symbols :=
  .cons (.mk (str ("D")) .Class ⟨⟨0, 0⟩, ⟨7, 1⟩⟩ ⟨⟨0, 6⟩, ⟨0, 7⟩⟩
    (.cons alphaSym (.cons betaSym .nil))) .nil

def cacheEnvAB : CacheEnv :=
  { provider := fun u => if u == uriAB.toStr then some symsAB else none,
    docVersion := fun _ => 1, now := 0 }

def mncAB : MethodNameCache :=
  (updateFileCache cacheEnvAB emptyCacheState uriAB).methodNameCache

/-- Forward-analysis environment of the `alpha`/`beta` cycle scenario. -/
def envAB : FwdEnv :=
  { docText := fun u => if u == uriAB.toStr then Except.ok textAB else Except.error (),
    symbolsFor := fun u => if u == uriAB.toStr then symsAB else .nil,
    mnc := mncAB,
    hostDefs := fun _ => [] }

/-- File identity of the chain example used for the depth-0 truncation
claim. -/
def uriT : Uri := ⟨str ("file:///ws/t.ts"), str ("/ws/t.ts")⟩

/-- Source text: `top` calls `mid`; `mid` calls `lefty` and `righty`; both
are leaves. -/
def textT : Str :=
  str ("class T \x7b\n  top() \x7b\n    this.mid();\n  \x7d\n  mid() \x7b\n    this.lefty();\n    this.righty();\n  \x7d\n  lefty() \x7b\n    let a = 1;\n  \x7d\n  righty() \x7b\n    let b = 2;\n  \x7d\n\x7d\n")

def topSym : DocumentSymbol :=
  .mk (str ("top")) .Method ⟨⟨1, 2⟩, ⟨3, 3⟩⟩ ⟨⟨1, 2⟩, ⟨1, 5⟩⟩ .nil

def midSym : DocumentSymbol :=
  .mk (str ("mid")) .Method ⟨⟨4, 2⟩, ⟨7, 3⟩⟩ ⟨⟨4, 2⟩, ⟨4, 5⟩⟩ .nil

def leftySym : DocumentSymbol :=
  .mk (str ("lefty")) .Method ⟨⟨8, 2⟩, ⟨10, 3⟩⟩ ⟨⟨8, 2⟩, ⟨8, 7⟩⟩ .nil

def rightySym : DocumentSymbol :=
  .mk (str ("righty")) .Method ⟨⟨11, 2⟩, ⟨13, 3⟩⟩ ⟨⟨11, 2⟩, ⟨11, 8⟩⟩ .nil

def symsT : Symbols :=
  .cons (.mk (str ("T")) .Class ⟨⟨0, 0⟩, ⟨14, 1⟩⟩ ⟨⟨0, 6⟩, ⟨0, 7⟩⟩
    (.cons topSym (.cons midSym (.cons leftySym (.cons rightySym .nil))))) .nil

def cacheEnvT : CacheEnv :=
  { provider := fun u => if u == uriT.toStr then some symsT else none,
    docVersion := fun _ => 1, now := 0 }

def mncT : MethodNameCache :=
  (updateFileCache cacheEnvT emptyCacheState uriT).methodNameCache

/-- Forward-analysis environment of the `top`/`mid`/`lefty`/`righty`
chain. -/
def envT : FwdEnv :=
  { docText := fun u => if u == uriT.toStr then Except.ok textT else Except.error (),
    symbolsFor := fun u => if u == uriT.toStr then symsT else .nil,
    mnc := mncT,
    hostDefs := fun _ => [] }

/-- File identity of the diamond example used for the run-wide visited-set
claim. -/
def uriR : Uri := ⟨str ("file:///ws/r.ts"), str ("/ws/r.ts")⟩

/-- Source text: `rootm` calls `ff` and `gg`; both call `hh`; `hh` is a
leaf — a diamond, so `hh` is reached twice on different paths. -/
def textR : Str :=
  str ("class R \x7b\n  rootm() \x7b\n    this.ff();\n    this.gg();\n  \x7d\n  ff() \x7b\n    this.hh();\n  \x7d\n  gg() \x7b\n    this.hh();\n  \x7d\n  hh() \x7b\n    let c = 3;\n  \x7d\n\x7d\n")

def rootmSym : DocumentSymbol :=
  .mk (str ("rootm")) .Method ⟨⟨1, 2⟩, ⟨4, 3⟩⟩ ⟨⟨1, 2⟩, ⟨1, 7⟩⟩ .nil

def ffSym : DocumentSymbol :=
  .mk (str ("ff")) .Method ⟨⟨5, 2⟩, ⟨7, 3⟩⟩ ⟨⟨5, 2⟩, ⟨5, 4⟩⟩ .nil

def ggSym : DocumentSymbol :=
  .mk (str ("gg")) .Method ⟨⟨8, 2⟩, ⟨10, 3⟩⟩ ⟨⟨8, 2⟩, ⟨8, 4⟩⟩ .nil

def hhSym : DocumentSymbol :=
  .mk (str ("hh")) .Method ⟨⟨11, 2⟩, ⟨13, 3⟩⟩ ⟨⟨11, 2⟩, ⟨11, 4⟩⟩ .nil

def symsR : Symbols :=
  .cons (.mk (str ("R")) .Class ⟨⟨0, 0⟩, ⟨14, 1⟩⟩ ⟨⟨0, 6⟩, ⟨0, 7⟩⟩
    (.cons rootmSym (.cons ffSym (.cons ggSym (.cons hhSym .nil))))) .nil

def cacheEnvR : CacheEnv :=
  { provider := fun u => if u == uriR.toStr then some symsR else none,
    docVersion := fun _ => 1, now := 0 }

def mncR : MethodNameCache :=
  (updateFileCache cacheEnvR emptyCacheState uriR).methodNameCache

/-- Forward-analysis environment of the diamond scenario. -/
def envR : FwdEnv :=
  { docText := fun u => if u == uriR.toStr then Except.ok textR else Except.error (),
    symbolsFor := fun u => if u == uriR.toStr then symsR else .nil,
    mnc := mncR,
    hostDefs := fun _ => [] }

/-- File identities for the mid-traversal document failure scenario:
`caller` lives in file F, its callee's definition in file G. -/
def uriF : Uri := ⟨str ("file:///ws/f.ts"), str ("/ws/f.ts")⟩

def uriG : Uri := ⟨str ("file:///ws/g.ts"), str ("/ws/g.ts")⟩

def textF : Str :=
  str ("class F \x7b\n  caller() \x7b\n    this.callee();\n  \x7d\n\x7d\n")

def callerSym : DocumentSymbol :=
  .mk (str ("caller")) .Method ⟨⟨1, 2⟩, ⟨3, 3⟩⟩ ⟨⟨1, 2⟩, ⟨1, 8⟩⟩ .nil

def symsF : Symbols :=
  .cons (.mk (str ("F")) .Class ⟨⟨0, 0⟩, ⟨4, 1⟩⟩ ⟨⟨0, 6⟩, ⟨0, 7⟩⟩
    (.cons callerSym .nil)) .nil

def calleeSym : DocumentSymbol :=
  .mk (str ("callee")) .Method ⟨⟨1, 2⟩, ⟨3, 3⟩⟩ ⟨⟨1, 2⟩, ⟨1, 8⟩⟩ .nil

/-- Method-name cache knowing `caller` (file F) and `callee` (file G). -/
def mncFG : MethodNameCache :=
  [(str ("caller"),
    [{ methodName := str ("caller"), uri := uriF, symbol := callerSym,
       filePath := uriF.fsPath }]),
   (str ("callee"),
    [{ methodName := str ("callee"), uri := uriG, symbol := calleeSym,
       filePath := uriG.fsPath }])]

/-- Forward-analysis environment in which opening file G rejects: the
definition of `callee` cannot be loaded mid-traversal. -/
def envFG : FwdEnv :=
  { docText := fun u => if u == uriF.toStr then Except.ok textF else Except.error (),
    symbolsFor := fun u => if u == uriF.toStr then symsF else .nil,
    mnc := mncFG,
    hostDefs := fun _ => [] }

/-- Trivial backward environment: no references, no symbols. -/
def envTrivB : BackEnv :=
  { refsFor := fun _ => [], symbolsFor := fun _ => .nil }

def trivSym : DocumentSymbol :=
  .mk (str ("m")) .Method ⟨⟨0, 0⟩, ⟨2, 1⟩⟩ ⟨⟨0, 0⟩, ⟨0, 1⟩⟩ .nil

/-! ## Specification-side comparison definitions -/

mutual
/-- The specification's caller-attribution rule, stated in its own words:
the smallest (deepest) enclosing symbol of kind
Method/Function/Constructor — children are searched before the symbol
itself is considered. -/
def deepestContainingMethod (range : Range) (symbols : Symbols) :
    Option DocumentSymbol :=
  match symbols with
  | .nil => none
  | .cons s rest =>
    match deepestContainingMethodOne range s with
    | some found => some found
    | none => deepestContainingMethod range rest
/-- Deepest enclosing method within one symbol tree. -/
def deepestContainingMethodOne (range : Range) (s : DocumentSymbol) :
    Option DocumentSymbol :=
  match s with
  | .mk n k r sr children =>
    match deepestContainingMethod range children with
    | some found => some found
    | none =>
      if (k == SymbolKind.Method || k == SymbolKind.Function ||
          k == SymbolKind.Constructor) && r.containsRange range then
        some (.mk n k r sr children)
      else none
end

/-- The specification's notion of a file path lying (nested) under a
directory: the path continues the directory path across a separator. -/
def liesUnderDir (path dir : Str) : Bool :=
  (dir ++ [ '/' ]).isPrefixOf path

/-! ## Counterexample inputs -/

/-- Inner function of the nested-function counterexample. -/
def cexInner : DocumentSymbol :=
  .mk (str ("inner")) .Function ⟨⟨2, 2⟩, ⟨5, 3⟩⟩ ⟨⟨2, 11⟩, ⟨2, 16⟩⟩ .nil

/-- Outer function of the nested-function counterexample; it contains
`cexInner`. -/
def cexOuter : DocumentSymbol :=
  .mk (str ("outer")) .Function ⟨⟨0, 0⟩, ⟨10, 1⟩⟩ ⟨⟨0, 9⟩, ⟨0, 14⟩⟩
    (.cons cexInner .nil)

def cexForest : Symbols := .cons cexOuter .nil

/-- A reference location inside both functions. -/
def cexRange : Range := ⟨⟨3, 4⟩, ⟨3, 8⟩⟩

/-- First candidate of the tie-break counterexample: a sibling file whose
name merely extends the directory name `/a/b`. -/
def cexBx : CachedMethodInfo :=
  { methodName := str ("helper"),
    uri := ⟨str ("file:///a/bx.ts"), str ("/a/bx.ts")⟩,
    symbol := .mk (str ("helper")) .Function ⟨⟨0, 0⟩, ⟨1, 1⟩⟩ ⟨⟨0, 9⟩, ⟨0, 15⟩⟩ .nil,
    filePath := str ("/a/bx.ts") }

/-- Second candidate of the tie-break counterexample: a file genuinely
nested under the directory `/a/b`. -/
def cexNested : CachedMethodInfo :=
  { methodName := str ("helper"),
    uri := ⟨str ("file:///a/b/real.ts"), str ("/a/b/real.ts")⟩,
    symbol := .mk (str ("helper")) .Function ⟨⟨0, 0⟩, ⟨1, 1⟩⟩ ⟨⟨0, 9⟩, ⟨0, 15⟩⟩ .nil,
    filePath := str ("/a/b/real.ts") }

/-- Method-name cache with two same-named candidates. -/
def cexTieMnc : MethodNameCache := [(str ("helper"), [cexBx, cexNested])]

/-- Context file `/a/b/c.ts` for the tie-break counterexample. -/
def cexCtxUri : Uri := ⟨str ("file:///a/b/c.ts"), str ("/a/b/c.ts")⟩

/-! ## Expected analysis results of the concrete scenarios -/

/-- The backward tree of the `open`/`openNow`/`quickStart` scenario at
`maxDepth = 2`. -/
def backChainTree : MethodCallInfo :=
  .mk (str ("open")) uriEx ⟨⟨1, 2⟩, ⟨1, 6⟩⟩ none 0
    [.mk (str ("openNow")) uriEx ⟨⟨4, 2⟩, ⟨4, 9⟩⟩ (some (str ("open"))) 1
      [.mk (str ("quickStart")) uriEx ⟨⟨7, 2⟩, ⟨7, 12⟩⟩ (some (str ("openNow"))) 2 []]]

/-- The forward call list of the `alpha`/`beta` cycle: the re-discovered
root `alpha` at depth 0, its callee `beta` at depth 1, and the second
occurrence of `alpha` on that path at depth 2 — recursive and a leaf. -/
def cycleCalls : InternalCalls :=
  .cons (.mk (str ("alpha")) uriAB ⟨⟨1, 2⟩, ⟨1, 7⟩⟩ (some uriAB)
      (some ⟨⟨1, 2⟩, ⟨1, 7⟩⟩) 0
    (.cons (.mk (str ("beta")) uriAB ⟨⟨2, 9⟩, ⟨2, 13⟩⟩ (some uriAB)
        (some ⟨⟨4, 2⟩, ⟨4, 6⟩⟩) 1
      (.cons (.mk (str ("alpha")) uriAB ⟨⟨5, 9⟩, ⟨5, 14⟩⟩ (some uriAB)
          (some ⟨⟨1, 2⟩, ⟨1, 7⟩⟩) 2
        .nil true true) .nil) true false) .nil) true false) .nil

/-- The forward call list of the `top`/`mid`/`lefty`/`righty` chain at
`maxDepth = 4`: a single top-level entry, while `mid` keeps two children
at depth 2. -/
def chainCalls : InternalCalls :=
  .cons (.mk (str ("top")) uriT ⟨⟨1, 2⟩, ⟨1, 5⟩⟩ (some uriT)
      (some ⟨⟨1, 2⟩, ⟨1, 5⟩⟩) 0
    (.cons (.mk (str ("mid")) uriT ⟨⟨2, 9⟩, ⟨2, 12⟩⟩ (some uriT)
        (some ⟨⟨4, 2⟩, ⟨4, 5⟩⟩) 1
      (.cons (.mk (str ("lefty")) uriT ⟨⟨5, 9⟩, ⟨5, 14⟩⟩ (some uriT)
          (some ⟨⟨8, 2⟩, ⟨8, 7⟩⟩) 2 .nil true false)
        (.cons (.mk (str ("righty")) uriT ⟨⟨6, 9⟩, ⟨6, 15⟩⟩ (some uriT)
            (some ⟨⟨11, 2⟩, ⟨11, 8⟩⟩) 2 .nil true false) .nil))
      true false) .nil) true false) .nil

/-- The forward call list of the diamond scenario at `maxDepth = 4`: `hh`
is expanded once under `ff`; the later `hh` under `gg` — although `hh` is
not on that node's path — is marked recursive and left a leaf. -/
def diamondCalls : InternalCalls :=
  .cons (.mk (str ("rootm")) uriR ⟨⟨1, 2⟩, ⟨1, 7⟩⟩ (some uriR)
      (some ⟨⟨1, 2⟩, ⟨1, 7⟩⟩) 0
    (.cons (.mk (str ("ff")) uriR ⟨⟨2, 9⟩, ⟨2, 11⟩⟩ (some uriR)
        (some ⟨⟨5, 2⟩, ⟨5, 4⟩⟩) 1
      (.cons (.mk (str ("hh")) uriR ⟨⟨6, 9⟩, ⟨6, 11⟩⟩ (some uriR)
          (some ⟨⟨11, 2⟩, ⟨11, 4⟩⟩) 2 .nil true false) .nil) true false)
      (.cons (.mk (str ("gg")) uriR ⟨⟨3, 9⟩, ⟨3, 11⟩⟩ (some uriR)
          (some ⟨⟨8, 2⟩, ⟨8, 4⟩⟩) 1
        (.cons (.mk (str ("hh")) uriR ⟨⟨9, 9⟩, ⟨9, 11⟩⟩ (some uriR)
            (some ⟨⟨11, 2⟩, ⟨11, 4⟩⟩) 2 .nil true true) .nil) true false)
        .nil)) true false) .nil

/-- The forward call list of the failing-document scenario: `callee`
resolves into file G, whose document cannot be opened, so the node stays a
childless resolved leaf while the analysis still returns a result. -/
def partialCalls : InternalCalls :=
  .cons (.mk (str ("caller")) uriF ⟨⟨1, 2⟩, ⟨1, 8⟩⟩ (some uriF)
      (some ⟨⟨1, 2⟩, ⟨1, 8⟩⟩) 0
    (.cons (.mk (str ("callee")) uriF ⟨⟨2, 9⟩, ⟨2, 15⟩⟩ (some uriG)
        (some ⟨⟨1, 2⟩, ⟨1, 8⟩⟩) 1 .nil true false) .nil) true false) .nil

/-! ## Tree-wide predicates -/

/-- Every node of a backward tree has depth at most `d`. -/
inductive DepthLe (d : Nat) : MethodCallInfo → Prop where
  | mk : ∀ (n : Str) (u : Uri) (r : Range) (c : Option Str) (dep : Nat)
      (cs : List MethodCallInfo), dep ≤ d → (∀ x ∈ cs, DepthLe d x) →
      DepthLe d (.mk n u r c dep cs)

mutual
/-- Every node of a forward tree has depth at most `d`. -/
inductive FDepthLe (d : Nat) : InternalMethodCallInfo → Prop where
  | mk : ∀ (n : Str) (u : Uri) (r : Range) (du : Option Uri)
      (dr : Option Range) (dep : Nat) (cs : InternalCalls)
      (res rec : Bool), dep ≤ d → FDepthLeL d cs →
      FDepthLe d (.mk n u r du dr dep cs res rec)
/-- Every node of a forward forest has depth at most `d`. -/
inductive FDepthLeL (d : Nat) : InternalCalls → Prop where
  | nil : FDepthLeL d .nil
  | cons : ∀ c rest, FDepthLe d c → FDepthLeL d rest →
      FDepthLeL d (.cons c rest)
end

/-- Every top-level node of a forward forest sits at depth `dep`. -/
inductive TopDepthIs (dep : Nat) : InternalCalls → Prop where
  | nil : TopDepthIs dep .nil
  | cons : ∀ c rest, c.depth = dep → TopDepthIs dep rest →
      TopDepthIs dep (.cons c rest)

/-! ## Lemmas about the backward worker -/

theorem withChildren_depth (ci : MethodCallInfo) (cs : List MethodCallInfo) :
    (ci.withChildren cs).depth = ci.depth := by
  cases ci
  rfl

theorem processLocations_depthField
    (recur : MethodCallInfo → Nat → BVis → MethodCallInfo × BVis)
    (fileUri : Uri) (symbols : Symbols) :
    ∀ (locs : List Location) (ci : MethodCallInfo) (cd : Nat) (vis : BVis),
      ((processLocations recur fileUri symbols locs ci cd vis).1).depth = ci.depth := by
  intro locs
  induction locs with
  | nil => intro ci cd vis; rfl
  | cons loc rest ih =>
    intro ci cd vis
    simp only [processLocations]
    split
    · exact ih ci cd vis
    · split
      · exact ih ci cd vis
      · rw [ih]
        exact withChildren_depth ..

theorem processFiles_depthField
    (recur : MethodCallInfo → Nat → BVis → MethodCallInfo × BVis)
    (env : BackEnv) :
    ∀ (files : List (Uri × List Location)) (ci : MethodCallInfo) (cd : Nat) (vis : BVis),
      ((processFiles recur env files ci cd vis).1).depth = ci.depth := by
  intro files
  induction files with
  | nil => intro ci cd vis; rfl
  | cons f rest ih =>
    intro ci cd vis
    obtain ⟨fileUri, locations⟩ := f
    simp only [processFiles]
    split
    · exact ih ci cd vis
    · split
      · exact ih ci cd vis
      · rw [ih]
        exact processLocations_depthField ..

theorem findMethodReferencesWorkspace_depthField (env : BackEnv) :
    ∀ (fuel : Nat) (ci : MethodCallInfo) (cd : Nat) (vis : BVis),
      ((findMethodReferencesWorkspace env fuel ci cd vis).1).depth = ci.depth := by
  intro fuel ci cd vis
  cases fuel with
  | zero => rfl
  | succ fuelLeft =>
    simp only [findMethodReferencesWorkspace]
    split
    · rfl
    · split
      · rfl
      · exact processFiles_depthField ..

theorem DepthLe_new_child (d : Nat) (n : Str) (u : Uri) (r : Range)
    (c : Option Str) (dep : Nat) (h : dep ≤ d) :
    DepthLe d (.mk n u r c dep []) := by
  exact ⟨n, u, r, c, dep, [], h, by intro x hx; cases hx⟩

theorem processLocations_DepthLe (d : Nat)
    (recur : MethodCallInfo → Nat → BVis → MethodCallInfo × BVis)
    (fileUri : Uri) (symbols : Symbols) (cd : Nat)
    (hcd : cd + 1 ≤ d)
    (Hrec : ∀ (ci' : MethodCallInfo) (vis' : BVis),
      DepthLe d ci' → DepthLe d ((recur ci' (cd + 1) vis').1)) :
    ∀ (locs : List Location) (ci : MethodCallInfo) (vis : BVis),
      DepthLe d ci →
      DepthLe d ((processLocations recur fileUri symbols locs ci cd vis).1) := by
  intro locs
  induction locs with
  | nil => intro ci vis h; exact h
  | cons loc rest ih =>
    intro ci vis h
    simp only [processLocations]
    split
    · exact ih ci vis h
    · split
      · exact ih ci vis h
      · rename_i callingMethod _ _ _
        apply ih
        cases h with
        | mk n u r c dep cs hdep hcs =>
          refine ⟨n, u, r, c, dep, _, hdep, ?_⟩
          intro x hx
          rcases List.mem_append.mp hx with hx | hx
          · exact hcs x hx
          · rcases List.mem_singleton.mp hx with rfl
            exact Hrec _ _ (DepthLe_new_child d _ _ _ _ _ hcd)

theorem processFiles_DepthLe (d : Nat)
    (recur : MethodCallInfo → Nat → BVis → MethodCallInfo × BVis)
    (env : BackEnv) (cd : Nat) (hcd : cd + 1 ≤ d)
    (Hrec : ∀ (ci' : MethodCallInfo) (vis' : BVis),
      DepthLe d ci' → DepthLe d ((recur ci' (cd + 1) vis').1)) :
    ∀ (files : List (Uri × List Location)) (ci : MethodCallInfo) (vis : BVis),
      DepthLe d ci →
      DepthLe d ((processFiles recur env files ci cd vis).1) := by
  intro files
  induction files with
  | nil => intro ci vis h; exact h
  | cons f rest ih =>
    intro ci vis h
    obtain ⟨fileUri, locations⟩ := f
    simp only [processFiles]
    split
    · exact ih ci vis h
    · split
      · exact ih ci vis h
      · exact ih _ _ (processLocations_DepthLe d recur fileUri _ cd hcd Hrec _ ci vis h)

theorem findMethodReferencesWorkspace_DepthLe (env : BackEnv) (d : Nat) :
    ∀ (fuel : Nat) (cd : Nat) (ci : MethodCallInfo) (vis : BVis),
      cd + fuel ≤ d → DepthLe d ci →
      DepthLe d ((findMethodReferencesWorkspace env fuel ci cd vis).1) := by
  intro fuel
  induction fuel with
  | zero => intro cd ci vis _ h; exact h
  | succ fuelLeft ih =>
    intro cd ci vis hle h
    simp only [findMethodReferencesWorkspace]
    split
    · exact h
    · split
      · exact h
      · refine processFiles_DepthLe d _ env cd (by omega) ?_ _ ci _ h
        intro ci' vis' h'
        exact ih (cd + 1) ci' vis' (by omega) h'

/-! ## Lemmas about the forward analyzer -/

theorem InternalCalls.append_length : ∀ (a b : InternalCalls),
    (a.append b).length = a.length + b.length
  | .nil, b => by simp [InternalCalls.append, InternalCalls.length]
  | .cons c rest, b => by
    simp [InternalCalls.append, InternalCalls.length,
      InternalCalls.append_length rest b]
    omega

theorem FDepthLeL_append {d : Nat} : ∀ (a b : InternalCalls),
    FDepthLeL d a → FDepthLeL d b → FDepthLeL d (a.append b)
  | .nil, b, _, hb => hb
  | .cons c rest, b, h, hb => by
    cases h with
    | cons c rest hc hrest =>
      exact .cons c (rest.append b) hc (FDepthLeL_append rest b hrest hb)

theorem FDepthLeL_drop1 {d : Nat} (l : InternalCalls) (h : FDepthLeL d l) :
    FDepthLeL d l.drop1 := by
  cases h with
  | nil => exact .nil
  | cons c rest hc hrest => exact hrest

theorem FDepthLeL_removeDuplicateCallsAux {d : Nat} :
    ∀ (l : InternalCalls) (seen : List DupKey),
      FDepthLeL d l → FDepthLeL d (removeDuplicateCallsAux l seen)
  | .nil, _, _ => .nil
  | .cons c rest, seen, h => by
    cases h with
    | cons c rest hc hrest =>
      simp only [removeDuplicateCallsAux]
      split
      · exact FDepthLeL_removeDuplicateCallsAux rest _ hrest
      · exact .cons c _ hc (FDepthLeL_removeDuplicateCallsAux rest _ hrest)

theorem FDepthLeL_removeDuplicateCalls {d : Nat} (l : InternalCalls)
    (h : FDepthLeL d l) : FDepthLeL d (removeDuplicateCalls l) :=
  FDepthLeL_removeDuplicateCallsAux l [] h

theorem expandDefinition_FDepthLeL {d : Nat}
    (recur : Str → Range → Uri → Nat → FVis → (Except Unit InternalCalls) × FVis)
    (env : FwdEnv) (cd : Nat) (definition : Option (Uri × Range))
    (methodKey : FwdKey) (isRecursive : Bool) (vis : FVis)
    (Hrec : ∀ (text : Str) (br : Range) (uri' : Uri) (vis' : FVis)
      (l : InternalCalls) (v : FVis),
      recur text br uri' (cd + 1) vis' = (Except.ok l, v) → FDepthLeL d l) :
    FDepthLeL d
      ((expandDefinition recur env cd definition methodKey isRecursive vis).1) := by
  unfold expandDefinition
  split
  · exact .nil
  · split
    · exact .nil
    · split
      · exact .nil
      · split
        · exact .nil
        · split
          · rename_i hr
            exact FDepthLeL_drop1 _ (Hrec _ _ _ _ _ _ hr)
          · exact .nil

theorem processMatches_FDepthLeL {d : Nat}
    (recur : Str → Range → Uri → Nat → FVis → (Except Unit InternalCalls) × FVis)
    (env : FwdEnv) (document : Str) (baseRange : Range) (uri : Uri) (cd : Nat)
    (hcd : cd ≤ d)
    (Hrec : ∀ (text : Str) (br : Range) (uri' : Uri) (vis' : FVis)
      (l : InternalCalls) (v : FVis),
      recur text br uri' (cd + 1) vis' = (Except.ok l, v) → FDepthLeL d l) :
    ∀ (ms : List MatchInfo) (calls : InternalCalls) (vis : FVis),
      FDepthLeL d calls →
      FDepthLeL d ((processMatches recur env document baseRange uri cd ms calls vis).1) := by
  intro ms
  induction ms with
  | nil => intro calls vis h; exact h
  | cons m rest ih =>
    intro calls vis h
    simp only [processMatches]
    split
    · exact ih calls vis h
    · split
      · exact FDepthLeL_append _ _ h
          (FDepthLeL.cons _ _
            (FDepthLe.mk _ _ _ _ _ _ _ _ _ hcd
              (expandDefinition_FDepthLeL recur env cd _ _ _ _ Hrec))
            FDepthLeL.nil)
      · exact ih _ _ (FDepthLeL_append _ _ h
          (FDepthLeL.cons _ _
            (FDepthLe.mk _ _ _ _ _ _ _ _ _ hcd
              (expandDefinition_FDepthLeL recur env cd _ _ _ _ Hrec))
            FDepthLeL.nil))

theorem findMethodCallsInText_FDepthLeL (env : FwdEnv) (d : Nat) :
    ∀ (fuel cd : Nat) (text : Str) (br : Range) (uri : Uri) (vis : FVis)
      (l : InternalCalls) (v : FVis), cd + fuel ≤ d →
      findMethodCallsInText env fuel text br uri cd vis = (Except.ok l, v) →
      FDepthLeL d l := by
  intro fuel
  induction fuel with
  | zero =>
    intro cd text br uri vis l v _ h
    simp only [findMethodCallsInText] at h
    cases h
    exact .nil
  | succ fuelLeft ih =>
    intro cd text br uri vis l v hle h
    simp only [findMethodCallsInText] at h
    rcases hdoc : env.docText uri.toStr with e | document
    · rw [hdoc] at h
      cases h
    · rw [hdoc] at h
      simp only at h
      cases h
      refine FDepthLeL_removeDuplicateCalls _ ?_
      refine processMatches_FDepthLeL _ env document br uri cd (by omega) ?_ _ .nil _ .nil
      intro text' br' uri' vis' l' v' h'
      exact ih (cd + 1) text' br' uri' vis' l' v' (by omega) h'

theorem TopDepthIs_append {dep : Nat} : ∀ (a b : InternalCalls),
    TopDepthIs dep a → TopDepthIs dep b → TopDepthIs dep (a.append b)
  | .nil, b, _, hb => hb
  | .cons c rest, b, h, hb => by
    cases h with
    | cons c rest hc hrest =>
      exact .cons c (rest.append b) hc (TopDepthIs_append rest b hrest hb)

theorem TopDepthIs_removeDuplicateCallsAux {dep : Nat} :
    ∀ (l : InternalCalls) (seen : List DupKey),
      TopDepthIs dep l → TopDepthIs dep (removeDuplicateCallsAux l seen)
  | .nil, _, _ => .nil
  | .cons c rest, seen, h => by
    cases h with
    | cons c rest hc hrest =>
      simp only [removeDuplicateCallsAux]
      split
      · exact TopDepthIs_removeDuplicateCallsAux rest _ hrest
      · exact .cons c _ hc (TopDepthIs_removeDuplicateCallsAux rest _ hrest)

theorem processMatches_TopDepthIs
    (recur : Str → Range → Uri → Nat → FVis → (Except Unit InternalCalls) × FVis)
    (env : FwdEnv) (document : Str) (baseRange : Range) (uri : Uri) (cd : Nat) :
    ∀ (ms : List MatchInfo) (calls : InternalCalls) (vis : FVis),
      TopDepthIs cd calls →
      TopDepthIs cd ((processMatches recur env document baseRange uri cd ms calls vis).1) := by
  intro ms
  induction ms with
  | nil => intro calls vis h; exact h
  | cons m rest ih =>
    intro calls vis h
    simp only [processMatches]
    split
    · exact ih calls vis h
    · split
      · exact TopDepthIs_append _ _ h (.cons _ _ rfl .nil)
      · exact ih _ _ (TopDepthIs_append _ _ h (.cons _ _ rfl .nil))

theorem findMethodCallsInText_TopDepthIs (env : FwdEnv) (fuel cd : Nat)
    (text : Str) (br : Range) (uri : Uri) (vis : FVis) (l : InternalCalls)
    (v : FVis)
    (h : findMethodCallsInText env fuel text br uri cd vis = (Except.ok l, v)) :
    TopDepthIs cd l := by
  cases fuel with
  | zero =>
    simp only [findMethodCallsInText] at h
    cases h
    exact .nil
  | succ fuelLeft =>
    simp only [findMethodCallsInText] at h
    rcases hdoc : env.docText uri.toStr with e | document
    · rw [hdoc] at h
      cases h
    · rw [hdoc] at h
      simp only at h
      cases h
      exact TopDepthIs_removeDuplicateCallsAux _ _
        (processMatches_TopDepthIs _ env document br uri cd _ .nil _ .nil)

theorem removeDuplicateCallsAux_length :
    ∀ (l : InternalCalls) (seen : List DupKey),
      (removeDuplicateCallsAux l seen).length ≤ l.length
  | .nil, _ => Nat.le_refl _
  | .cons c rest, seen => by
    simp only [removeDuplicateCallsAux]
    split
    · have := removeDuplicateCallsAux_length rest seen
      simp [InternalCalls.length]
      omega
    · have := removeDuplicateCallsAux_length rest
        ((c.methodName, c.range.start.line, c.range.start.character, c.uri.toStr) :: seen)
      simp [InternalCalls.length]
      omega

theorem processMatches_length_zero
    (recur : Str → Range → Uri → Nat → FVis → (Except Unit InternalCalls) × FVis)
    (env : FwdEnv) (document : Str) (baseRange : Range) (uri : Uri) :
    ∀ (ms : List MatchInfo) (calls : InternalCalls) (vis : FVis),
      ((processMatches recur env document baseRange uri 0 ms calls vis).1).length
        ≤ calls.length + 1 := by
  intro ms
  induction ms with
  | nil => intro calls vis; exact Nat.le_succ _
  | cons m rest ih =>
    intro calls vis
    simp only [processMatches]
    split
    · exact ih calls vis
    · simp only [if_pos Nat.zero_lt_one]
      rw [InternalCalls.append_length]
      simp [InternalCalls.length]

theorem findMethodCallsInText_length_zero (env : FwdEnv) (fuel : Nat)
    (text : Str) (br : Range) (uri : Uri) (vis : FVis) (l : InternalCalls)
    (v : FVis)
    (h : findMethodCallsInText env fuel text br uri 0 vis = (Except.ok l, v)) :
    l.length ≤ 1 := by
  cases fuel with
  | zero =>
    simp only [findMethodCallsInText] at h
    cases h
    exact Nat.zero_le _
  | succ fuelLeft =>
    simp only [findMethodCallsInText] at h
    rcases hdoc : env.docText uri.toStr with e | document
    · rw [hdoc] at h
      cases h
    · rw [hdoc] at h
      simp only at h
      cases h
      calc (removeDuplicateCalls _).length
          ≤ _ := removeDuplicateCallsAux_length _ _
        _ ≤ InternalCalls.nil.length + 1 := processMatches_length_zero _ env document br uri _ .nil _
        _ = 1 := rfl

theorem expandDefinition_vis_mono
    (recur : Str → Range → Uri → Nat → FVis → (Except Unit InternalCalls) × FVis)
    (env : FwdEnv) (cd : Nat) (definition : Option (Uri × Range))
    (methodKey : FwdKey) (isRecursive : Bool) (vis : FVis)
    (Hrec : ∀ (text : Str) (br : Range) (uri' : Uri) (vis' : FVis) (k : FwdKey),
      k ∈ vis' → k ∈ (recur text br uri' (cd + 1) vis').2)
    (k : FwdKey) (hk : k ∈ vis) :
    k ∈ (expandDefinition recur env cd definition methodKey isRecursive vis).2 := by
  unfold expandDefinition
  split
  · exact hk
  · rename_i defUri defRange
    split
    · exact hk
    · split
      · exact List.mem_cons_of_mem _ hk
      · rename_i defDocument hdoc
        split
        · exact List.mem_cons_of_mem _ hk
        · rename_i defMethod hsym
          have h2 := Hrec (getTextInRange defDocument defMethod.range)
            defMethod.range defUri (methodKey :: vis) k (List.mem_cons_of_mem _ hk)
          split
          · rename_i childCalls visR hr
            rw [hr] at h2
            exact h2
          · rename_i e visR hr
            rw [hr] at h2
            exact h2

theorem processMatches_vis_mono
    (recur : Str → Range → Uri → Nat → FVis → (Except Unit InternalCalls) × FVis)
    (env : FwdEnv) (document : Str) (baseRange : Range) (uri : Uri) (cd : Nat)
    (Hrec : ∀ (text : Str) (br : Range) (uri' : Uri) (vis' : FVis) (k : FwdKey),
      k ∈ vis' → k ∈ (recur text br uri' (cd + 1) vis').2) :
    ∀ (ms : List MatchInfo) (calls : InternalCalls) (vis : FVis) (k : FwdKey),
      k ∈ vis →
      k ∈ (processMatches recur env document baseRange uri cd ms calls vis).2 := by
  intro ms
  induction ms with
  | nil => intro calls vis k hk; exact hk
  | cons m rest ih =>
    intro calls vis k hk
    simp only [processMatches]
    split
    · exact ih calls vis k hk
    · split
      · exact expandDefinition_vis_mono recur env cd _ _ _ vis Hrec k hk
      · exact ih _ _ k (expandDefinition_vis_mono recur env cd _ _ _ vis Hrec k hk)

theorem findMethodCallsInText_vis_mono (env : FwdEnv) :
    ∀ (fuel : Nat) (text : Str) (br : Range) (uri : Uri) (cd : Nat)
      (vis : FVis) (k : FwdKey), k ∈ vis →
      k ∈ (findMethodCallsInText env fuel text br uri cd vis).2 := by
  intro fuel
  induction fuel with
  | zero => intro text br uri cd vis k hk; exact hk
  | succ fuelLeft ih =>
    intro text br uri cd vis k hk
    simp only [findMethodCallsInText]
    rcases hdoc : env.docText uri.toStr with e | document
    · exact hk
    · simp only
      exact processMatches_vis_mono _ env document br uri cd
        (fun text' br' uri' vis' k' hk' => ih text' br' uri' (cd + 1) vis' k' hk')
        _ .nil vis k hk

theorem findMethodCallsInText_ok (env : FwdEnv) (fuel : Nat) (text : Str)
    (br : Range) (uri : Uri) (cd : Nat) (vis : FVis) (document : Str)
    (hdoc : env.docText uri.toStr = Except.ok document) :
    ∃ (l : InternalCalls) (v : FVis),
      findMethodCallsInText env fuel text br uri cd vis = (Except.ok l, v) := by
  cases fuel with
  | zero => exact ⟨.nil, vis, rfl⟩
  | succ fuelLeft =>
    simp only [findMethodCallsInText, hdoc]
    exact ⟨_, _, rfl⟩

/-! ## Lemmas about `findContainingMethod` -/

mutual
theorem findContainingMethod_sound (r : Range) :
    ∀ (symbols : Symbols) (s : DocumentSymbol),
      findContainingMethod r symbols = some s →
      isMethodSymbol s = true ∧ s.range.containsRange r = true ∧ InForest s symbols
  | .nil, s, h => by simp [findContainingMethod] at h
  | .cons t rest, s, h => by
    simp only [findContainingMethod] at h
    rcases h1 : findContainingMethodOne r t with _ | f
    · rw [h1] at h
      obtain ⟨a, b, c⟩ := findContainingMethod_sound r rest s h
      exact ⟨a, b, .tail s t rest c⟩
    · rw [h1] at h
      cases h
      obtain ⟨a, b, c⟩ := findContainingMethodOne_sound r t s h1
      exact ⟨a, b, .head s t rest c⟩

theorem findContainingMethodOne_sound (r : Range) :
    ∀ (t : DocumentSymbol) (s : DocumentSymbol),
      findContainingMethodOne r t = some s →
      isMethodSymbol s = true ∧ s.range.containsRange r = true ∧ InSymbol s t
  | .mk n k rg sr children, s, h => by
    simp only [findContainingMethodOne] at h
    split at h
    · rename_i hcond
      cases h
      rw [Bool.and_eq_true] at hcond
      exact ⟨hcond.1, hcond.2, .here _⟩
    · obtain ⟨a, b, c⟩ := findContainingMethod_sound r children s h
      exact ⟨a, b, .child s n k rg sr children c⟩
end

mutual
theorem findContainingMethod_none (r : Range) :
    ∀ (symbols : Symbols), findContainingMethod r symbols = none →
      ∀ (s : DocumentSymbol), InForest s symbols → isMethodSymbol s = true →
        s.range.containsRange r = false
  | .nil, _, s, hin => by cases hin
  | .cons t rest, h, s, hin => by
    simp only [findContainingMethod] at h
    rcases h1 : findContainingMethodOne r t with _ | f
    · rw [h1] at h
      cases hin with
      | head _ _ hs => exact findContainingMethodOne_none r t h1 s hs
      | tail _ _ hs => exact findContainingMethod_none r rest h s hs
    · rw [h1] at h
      cases h

theorem findContainingMethodOne_none (r : Range) :
    ∀ (t : DocumentSymbol), findContainingMethodOne r t = none →
      ∀ (s : DocumentSymbol), InSymbol s t → isMethodSymbol s = true →
        s.range.containsRange r = false
  | .mk n k rg sr children, h, s, hin => by
    simp only [findContainingMethodOne] at h
    split at h
    · cases h
    · rename_i hcond
      cases hin with
      | here =>
        intro hms
        have hk : (k == SymbolKind.Method || k == SymbolKind.Function ||
            k == SymbolKind.Constructor) = true := by
          simpa [isMethodSymbol, DocumentSymbol.kind] using hms
        by_contra hc
        simp only [DocumentSymbol.range] at hc
        exact hcond (by simp [hk, eq_true_of_ne_false (by simpa using hc)])
      | child _ _ _ _ _ hs =>
        exact findContainingMethod_none r children h s hs
end

/-! ## Lemmas about the method-name cache -/

/-- Well-formedness of a JavaScript `Map` represented as an association
list: keys are pairwise distinct. -/
def keysNodup (m : MethodNameCache) : Prop := (m.map Prod.fst).Nodup

theorem alGet_cons {α : Type} (a : Str) (b : α) (t : List (Str × α)) (key : Str) :
    alGet ((a, b) :: t) key = if (a == key) = true then some b else alGet t key := by
  by_cases h : (a == key) = true
  · simp [alGet, List.find?_cons_of_pos, h]
  · simp only [h, if_false]
    simp [alGet, List.find?_cons_of_neg, h]

theorem findMethodsByName_cons (k : Str) (v : List CachedMethodInfo)
    (rest : MethodNameCache) (name : Str) :
    findMethodsByName ((k, v) :: rest) name =
      if (k == name) = true then v else findMethodsByName rest name := by
  by_cases h : (k == name) = true <;> simp [findMethodsByName, alGet_cons, h]

theorem findMethodsByName_eq_nil (name : Str) :
    ∀ (m : MethodNameCache), (∀ p ∈ m, (p.1 == name) = false) →
      findMethodsByName m name = []
  | [], _ => rfl
  | (k, v) :: rest, h => by
    have hk := h (k, v) (List.mem_cons_self ..)
    rw [findMethodsByName_cons]
    simp only [hk]
    simp only [Bool.false_eq_true, if_false]
    exact findMethodsByName_eq_nil name rest (fun p hp => h p (List.mem_cons_of_mem _ hp))

theorem removeMethodsFromCache_no_key (uri : Uri) (name : Str)
    (m : MethodNameCache) (h : ∀ p ∈ m, (p.1 == name) = false) :
    ∀ p ∈ removeMethodsFromCache uri m, (p.1 == name) = false := by
  intro p hp
  simp only [removeMethodsFromCache, List.mem_filterMap] at hp
  obtain ⟨q, hq, hfq⟩ := hp
  have : p.1 = q.1 := by
    rcases hfil : q.2.filter (fun info => info.uri.toStr != uri.toStr) with _ | _
    · rw [hfil] at hfq
      cases hfq
    · rw [hfil] at hfq
      cases hfq
      rfl
  rw [this]
  exact h q hq

theorem removeMethodsFromCache_cons (uri : Uri) (k : Str)
    (infos : List CachedMethodInfo) (rest : MethodNameCache) :
    removeMethodsFromCache uri ((k, infos) :: rest) =
      match infos.filter (fun info => info.uri.toStr != uri.toStr) with
      | [] => removeMethodsFromCache uri rest
      | fs => (k, fs) :: removeMethodsFromCache uri rest := by
  rcases hfil : infos.filter (fun info => info.uri.toStr != uri.toStr) with _ | ⟨i0, irest⟩ <;>
    simp [removeMethodsFromCache, List.filterMap_cons, hfil]

theorem findMethodsByName_remove (uri : Uri) (name : Str) :
    ∀ (m : MethodNameCache), keysNodup m →
      findMethodsByName (removeMethodsFromCache uri m) name =
        (findMethodsByName m name).filter (fun i => i.uri.toStr != uri.toStr)
  | [], _ => rfl
  | (k, infos) :: rest, hnd => by
    have hnd0 : (k :: rest.map Prod.fst).Nodup := by
      have h0 := hnd
      simp only [keysNodup, List.map_cons] at h0
      exact h0
    have hnd' := List.nodup_cons.mp hnd0
    have hnd_rest : keysNodup rest := hnd'.2
    rw [removeMethodsFromCache_cons, findMethodsByName_cons]
    cases hkname : (k == name) with
    | true =>
      have hkeq : k = name := eq_of_beq hkname
      have hrest_no : ∀ p ∈ rest, (p.1 == name) = false := by
        intro p hp
        have hne : p.1 ≠ k := by
          intro he
          exact hnd'.1 (he ▸ List.mem_map_of_mem Prod.fst hp)
        rw [← hkeq]
        simpa using hne
      rcases hfil : infos.filter (fun info => info.uri.toStr != uri.toStr) with _ | ⟨i0, irest⟩
      · simp only [hfil, if_true]
        exact findMethodsByName_eq_nil name _
          (removeMethodsFromCache_no_key uri name rest hrest_no)
      · simp only [hfil, if_true]
        rw [findMethodsByName_cons]
        simp [hkname]
    | false =>
      rcases hfil : infos.filter (fun info => info.uri.toStr != uri.toStr) with _ | ⟨i0, irest⟩
      · simp only [hfil, Bool.false_eq_true, if_false]
        exact findMethodsByName_remove uri name rest hnd_rest
      · simp only [hfil, Bool.false_eq_true, if_false]
        rw [findMethodsByName_cons]
        simp only [hkname, Bool.false_eq_true, if_false]
        exact findMethodsByName_remove uri name rest hnd_rest

theorem alGet_map_set {α : Type} (k : Str) (v : α) :
    ∀ (m : List (Str × α)), m.any (fun p => p.1 == k) = true →
      alGet (m.map (fun p => if p.1 == k then (p.1, v) else p)) k = some v
  | [], h => by simp at h
  | (k1, v1) :: rest, h => by
    simp only [List.map_cons]
    cases hk1 : (k1 == k) with
    | true =>
      simp only [hk1, if_true]
      rw [alGet_cons]
      simp [hk1]
    | false =>
      have hrest : rest.any (fun p => p.1 == k) = true := by
        rw [List.any_cons, hk1, Bool.false_or] at h
        exact h
      simp only [hk1, Bool.false_eq_true, if_false]
      rw [alGet_cons]
      simp only [hk1, Bool.false_eq_true, if_false]
      exact alGet_map_set k v rest hrest

theorem alGet_append_last {α : Type} (k : Str) (v : α) :
    ∀ (m : List (Str × α)), m.any (fun p => p.1 == k) = false →
      alGet (m ++ [(k, v)]) k = some v
  | [], _ => by
    simp only [List.nil_append]
    rw [alGet_cons]
    rw [if_pos (beq_self_eq_true k)]
  | (k1, v1) :: rest, h => by
    rw [List.any_cons] at h
    have hk1 : (k1 == k) = false := by
      cases hv : (k1 == k) with
      | true => rw [hv] at h; simp at h
      | false => rfl
    have hrest : rest.any (fun p => p.1 == k) = false := by
      cases hv : rest.any (fun p => p.1 == k) with
      | true => rw [hv] at h; simp at h
      | false => rfl
    simp only [List.cons_append]
    rw [alGet_cons]
    simp only [hk1, Bool.false_eq_true, if_false]
    exact alGet_append_last k v rest hrest

theorem alGet_alSet_self {α : Type} (m : List (Str × α)) (k : Str) (v : α) :
    alGet (alSet m k v) k = some v := by
  unfold alSet
  cases hany : m.any (fun p => p.1 == k) with
  | true =>
    simp only [hany, if_true]
    exact alGet_map_set k v m hany
  | false =>
    simp only [hany, Bool.false_eq_true, if_false]
    exact alGet_append_last k v m hany

theorem alGet_map_set_other {α : Type} (k : Str) (v : α) (name : Str)
    (hne : (k == name) = false) :
    ∀ (m : List (Str × α)),
      alGet (m.map (fun p => if p.1 == k then (p.1, v) else p)) name = alGet m name
  | [] => rfl
  | (k1, v1) :: rest => by
    simp only [List.map_cons]
    cases hk1 : (k1 == k) with
    | true =>
      have hk1name : (k1 == name) = false := by
        have he : k1 = k := eq_of_beq hk1
        rw [he]
        exact hne
      simp only [hk1, if_true]
      rw [alGet_cons, alGet_cons]
      simp only [hk1name, Bool.false_eq_true, if_false]
      exact alGet_map_set_other k v name hne rest
    | false =>
      simp only [hk1, Bool.false_eq_true, if_false]
      rw [alGet_cons, alGet_cons]
      cases hk1name : (k1 == name) with
      | true => simp [hk1name]
      | false =>
        simp only [hk1name, Bool.false_eq_true, if_false]
        exact alGet_map_set_other k v name hne rest

theorem alGet_append_other {α : Type} (k : Str) (v : α) (name : Str)
    (hne : (k == name) = false) :
    ∀ (m : List (Str × α)), alGet (m ++ [(k, v)]) name = alGet m name
  | [] => by
    simp only [List.nil_append]
    rw [alGet_cons]
    simp only [hne, Bool.false_eq_true, if_false]
  | (k1, v1) :: rest => by
    simp only [List.cons_append]
    rw [alGet_cons, alGet_cons]
    cases hk1name : (k1 == name) with
    | true => simp [hk1name]
    | false =>
      simp only [hk1name, Bool.false_eq_true, if_false]
      exact alGet_append_other k v name hne rest

theorem alGet_alSet_other {α : Type} (m : List (Str × α)) (k : Str) (v : α)
    (name : Str) (hne : (k == name) = false) :
    alGet (alSet m k v) name = alGet m name := by
  unfold alSet
  cases hany : m.any (fun p => p.1 == k) with
  | true =>
    simp only [hany, if_true]
    exact alGet_map_set_other k v name hne m
  | false =>
    simp only [hany, Bool.false_eq_true, if_false]
    exact alGet_append_other k v name hne m

theorem findMethodsByName_alSet_self (m : MethodNameCache) (k : Str)
    (v : List CachedMethodInfo) : findMethodsByName (alSet m k v) k = v := by
  simp [findMethodsByName, alGet_alSet_self]

theorem findMethodsByName_alSet_other (m : MethodNameCache) (k : Str)
    (v : List CachedMethodInfo) (name : Str) (hne : (k == name) = false) :
    findMethodsByName (alSet m k v) name = findMethodsByName m name := by
  simp [findMethodsByName, alGet_alSet_other m k v name hne]

mutual
/-- The definition records `extractMethodsFromSymbols` contributes for a
forest, in extraction order. -/
def gatherMethods (uri : Uri) : Symbols → List CachedMethodInfo
  | .nil => []
  | .cons s rest => gatherMethodsOne uri s ++ gatherMethods uri rest
/-- The definition records contributed for a single symbol tree. -/
def gatherMethodsOne (uri : Uri) : DocumentSymbol → List CachedMethodInfo
  | .mk name kind range selectionRange children =>
    (if isMethodSymbol (.mk name kind range selectionRange children) then
      [{ methodName := name, uri := uri,
         symbol := .mk name kind range selectionRange children,
         filePath := uri.fsPath }]
    else []) ++ gatherMethods uri children
end

mutual
theorem extract_lookup (uri : Uri) (name : Str) :
    ∀ (symbols : Symbols) (mnc : MethodNameCache),
      findMethodsByName (extractMethodsFromSymbols uri symbols mnc) name =
        findMethodsByName mnc name ++
          (gatherMethods uri symbols).filter (fun i => i.methodName == name)
  | .nil, mnc => by simp [extractMethodsFromSymbols, gatherMethods]
  | .cons s rest, mnc => by
    simp only [extractMethodsFromSymbols, gatherMethods]
    rw [extract_lookup uri name rest (extractMethodsFromOne uri s mnc),
      extractOne_lookup uri name s mnc]
    rw [List.filter_append, List.append_assoc]

theorem extractOne_lookup (uri : Uri) (name : Str) :
    ∀ (s : DocumentSymbol) (mnc : MethodNameCache),
      findMethodsByName (extractMethodsFromOne uri s mnc) name =
        findMethodsByName mnc name ++
          (gatherMethodsOne uri s).filter (fun i => i.methodName == name)
  | .mk n k rg sr children, mnc => by
    simp only [extractMethodsFromOne, gatherMethodsOne]
    rw [extract_lookup uri name children _]
    by_cases hm : isMethodSymbol (.mk n k rg sr children) = true
    · simp only [hm, if_true]
      rw [List.filter_append]
      cases hn : (n == name) with
      | true =>
        have hneq : n = name := eq_of_beq hn
        subst hneq
        rw [findMethodsByName_alSet_self]
        simp only [List.filter_cons, List.filter_nil, hn]
        simp [List.append_assoc, findMethodsByName]
      | false =>
        rw [findMethodsByName_alSet_other _ _ _ _ hn]
        simp only [List.filter_cons, List.filter_nil, hn]
        simp [List.append_assoc]
    · simp only [hm]
      simp only [Bool.false_eq_true, if_false]
      simp
end

mutual
theorem gather_uri (uri : Uri) :
    ∀ (symbols : Symbols) (i : CachedMethodInfo),
      i ∈ gatherMethods uri symbols → i.uri = uri
  | .nil, i, h => by simp [gatherMethods] at h
  | .cons s rest, i, h => by
    simp only [gatherMethods, List.mem_append] at h
    rcases h with h | h
    · exact gatherOne_uri uri s i h
    · exact gather_uri uri rest i h

theorem gatherOne_uri (uri : Uri) :
    ∀ (s : DocumentSymbol) (i : CachedMethodInfo),
      i ∈ gatherMethodsOne uri s → i.uri = uri
  | .mk n k rg sr children, i, h => by
    simp only [gatherMethodsOne, List.mem_append] at h
    rcases h with h | h
    · split at h
      · rcases List.mem_singleton.mp h with rfl
        rfl
      · cases h
    · exact gather_uri uri children i h
end

theorem filter_eq_nil_of_all_false {α : Type} (p : α → Bool) :
    ∀ (l : List α), (∀ a ∈ l, p a = false) → l.filter p = []
  | [], _ => rfl
  | a :: rest, h => by
    rw [List.filter_cons]
    simp only [h a (List.mem_cons_self ..), Bool.false_eq_true, if_false]
    exact filter_eq_nil_of_all_false p rest
      (fun b hb => h b (List.mem_cons_of_mem _ hb))

theorem filter_idem {α : Type} (p : α → Bool) :
    ∀ (l : List α), (l.filter p).filter p = l.filter p
  | [] => rfl
  | a :: rest => by
    rw [List.filter_cons]
    cases hp : p a with
    | true =>
      simp only [if_true]
      rw [List.filter_cons]
      simp only [hp, if_true]
      rw [filter_idem p rest]
    | false =>
      simp only [Bool.false_eq_true, if_false]
      exact filter_idem p rest

theorem remove_keys_sublist (uri : Uri) :
    ∀ (m : MethodNameCache),
      ((removeMethodsFromCache uri m).map Prod.fst).Sublist (m.map Prod.fst)
  | [] => List.Sublist.slnil
  | (k, infos) :: rest => by
    rw [removeMethodsFromCache_cons]
    rcases hfil : infos.filter (fun info => info.uri.toStr != uri.toStr) with _ | ⟨i0, irest⟩
    · simp only [hfil]
      exact (remove_keys_sublist uri rest).cons k
    · simp only [hfil, List.map_cons]
      exact (remove_keys_sublist uri rest).cons₂ k

theorem keysNodup_remove (uri : Uri) (m : MethodNameCache)
    (h : keysNodup m) : keysNodup (removeMethodsFromCache uri m) :=
  (remove_keys_sublist uri m).nodup h

theorem not_mem_keys_of_any_false {α : Type} (k : Str)
    (m : List (Str × α)) (h : m.any (fun p => p.1 == k) = false) :
    k ∉ m.map Prod.fst := by
  intro hk
  obtain ⟨p, hp, hpk⟩ := List.mem_map.mp hk
  have : m.any (fun p => p.1 == k) = true :=
    List.any_eq_true.mpr ⟨p, hp, by simp [hpk]⟩
  rw [h] at this
  cases this

theorem keysNodup_alSet (m : MethodNameCache) (k : Str)
    (v : List CachedMethodInfo) (h : keysNodup m) : keysNodup (alSet m k v) := by
  unfold alSet
  cases hany : m.any (fun p => p.1 == k) with
  | true =>
    simp only [hany, if_true]
    have : (m.map (fun p => if p.1 == k then (p.1, v) else p)).map Prod.fst =
        m.map Prod.fst := by
      rw [List.map_map]
      refine List.map_congr_left ?_
      intro p _
      by_cases hp : p.1 = k <;> simp [hp]
    simp only [keysNodup]
    rw [this]
    exact h
  | false =>
    simp only [hany, Bool.false_eq_true, if_false]
    have hnk := not_mem_keys_of_any_false k m hany
    simp only [keysNodup, List.map_append, List.map_cons, List.map_nil]
    rw [List.nodup_append]
    refine ⟨h, List.nodup_singleton k, ?_⟩
    intro x hx hx2
    rcases List.mem_singleton.mp hx2 with rfl
    exact hnk hx

mutual
theorem keysNodup_extract (uri : Uri) :
    ∀ (symbols : Symbols) (mnc : MethodNameCache),
      keysNodup mnc → keysNodup (extractMethodsFromSymbols uri symbols mnc)
  | .nil, _mnc, h => h
  | .cons s rest, mnc, h =>
    keysNodup_extract uri rest (extractMethodsFromOne uri s mnc)
      (keysNodup_extractOne uri s mnc h)

theorem keysNodup_extractOne (uri : Uri) :
    ∀ (s : DocumentSymbol) (mnc : MethodNameCache),
      keysNodup mnc → keysNodup (extractMethodsFromOne uri s mnc)
  | .mk n k rg sr children, mnc, h => by
    simp only [extractMethodsFromOne]
    split
    · exact keysNodup_extract uri children _ (keysNodup_alSet mnc n _ h)
    · exact keysNodup_extract uri children mnc h
end

theorem alSet_contains {α : Type} (m : List (Str × α)) (k : Str) (v : α) :
    (alSet m k v).any (fun p => p.1 == k) = true := by
  unfold alSet
  cases hany : m.any (fun p => p.1 == k) with
  | true =>
    simp only [hany, if_true]
    obtain ⟨p, hp, hpk⟩ := List.any_eq_true.mp hany
    refine List.any_eq_true.mpr ⟨(if p.1 == k then (p.1, v) else p), List.mem_map_of_mem _ hp, ?_⟩
    rw [if_pos hpk]
    exact hpk
  | false =>
    simp only [hany, Bool.false_eq_true, if_false]
    rw [List.any_append]
    simp

theorem updateFileCache_mnc (env : CacheEnv) (st : WorkspaceSymbolCacheState)
    (F : Uri) (symbols : Symbols) (hprov : env.provider F.toStr = some symbols) :
    (updateFileCache env st F).methodNameCache =
      extractMethodsFromSymbols F symbols
        (removeMethodsFromCache F st.methodNameCache) := by
  simp [updateFileCache, hprov, buildMethodNameCacheForFile]

theorem invalidate_after_update_mnc (env : CacheEnv)
    (st : WorkspaceSymbolCacheState) (F : Uri) (symbols : Symbols)
    (hprov : env.provider F.toStr = some symbols) :
    (invalidateFileCache (updateFileCache env st F) F).methodNameCache =
      removeMethodsFromCache F (updateFileCache env st F).methodNameCache := by
  have hcontains : (updateFileCache env st F).symbolCache.any
      (fun p => p.1 == F.toStr) = true := by
    simp only [updateFileCache, hprov]
    exact alSet_contains ..
  simp [invalidateFileCache, hcontains]

theorem update_lookup (env : CacheEnv) (st : WorkspaceSymbolCacheState)
    (F : Uri) (symbols : Symbols) (hprov : env.provider F.toStr = some symbols)
    (hnd : keysNodup st.methodNameCache) (name : Str) :
    findMethodsByName (updateFileCache env st F).methodNameCache name =
      (findMethodsByName st.methodNameCache name).filter
          (fun i => i.uri.toStr != F.toStr)
        ++ (gatherMethods F symbols).filter (fun i => i.methodName == name) := by
  rw [updateFileCache_mnc env st F symbols hprov, extract_lookup,
    findMethodsByName_remove F name st.methodNameCache hnd]

theorem keysNodup_update (env : CacheEnv) (st : WorkspaceSymbolCacheState)
    (F : Uri) (symbols : Symbols) (hprov : env.provider F.toStr = some symbols)
    (hnd : keysNodup st.methodNameCache) :
    keysNodup (updateFileCache env st F).methodNameCache := by
  rw [updateFileCache_mnc env st F symbols hprov]
  exact keysNodup_extract F symbols _ (keysNodup_remove F _ hnd)

theorem gather_filter_out (F : Uri) (symbols : Symbols) (name : Str) :
    ((gatherMethods F symbols).filter (fun i => i.methodName == name)).filter
      (fun i => i.uri.toStr != F.toStr) = [] := by
  refine filter_eq_nil_of_all_false _ _ ?_
  intro i hi
  have hiu : i.uri = F := gather_uri F symbols i (List.mem_filter.mp hi).1
  simp [hiu]

/-- C6: for every file F (with a well-formed method-name cache and a symbol
provider answering for F): after indexing F and then invalidating F, no
definition record attributed to F remains in the index, and every
method-name lookup for a name whose definitions all came from F returns the
empty sequence; re-indexing F afterwards restores exactly F's contributed
definitions to every lookup. -/
theorem claim_C6_cache_invalidation_round_trip (env : CacheEnv)
    (st : WorkspaceSymbolCacheState) (F : Uri) (symbols : Symbols)
    (hprov : env.provider F.toStr = some symbols)
    (hnd : keysNodup st.methodNameCache) :
    (∀ (name : Str) (i : CachedMethodInfo),
        i ∈ findMethodsByName
          (invalidateFileCache (updateFileCache env st F) F).methodNameCache name →
        i.uri.toStr ≠ F.toStr)
    ∧ (∀ name : Str,
        (∀ i ∈ findMethodsByName (updateFileCache env st F).methodNameCache name,
          i.uri.toStr = F.toStr) →
        findMethodsByName
          (invalidateFileCache (updateFileCache env st F) F).methodNameCache name = [])
    ∧ (∀ name : Str,
        findMethodsByName
          (updateFileCache env (invalidateFileCache (updateFileCache env st F) F) F).methodNameCache
          name =
        findMethodsByName (updateFileCache env st F).methodNameCache name) := by
  have hnd1 : keysNodup (updateFileCache env st F).methodNameCache :=
    keysNodup_update env st F symbols hprov hnd
  have hs2 : (invalidateFileCache (updateFileCache env st F) F).methodNameCache =
      removeMethodsFromCache F (updateFileCache env st F).methodNameCache :=
    invalidate_after_update_mnc env st F symbols hprov
  have hlook2 : ∀ name : Str,
      findMethodsByName
        (invalidateFileCache (updateFileCache env st F) F).methodNameCache name =
      (findMethodsByName (updateFileCache env st F).methodNameCache name).filter
        (fun i => i.uri.toStr != F.toStr) := by
    intro name
    rw [hs2, findMethodsByName_remove F name _ hnd1]
  refine ⟨?_, ?_, ?_⟩
  · intro name i hi
    rw [hlook2 name] at hi
    have := (List.mem_filter.mp hi).2
    simpa using this
  · intro name hall
    rw [hlook2 name]
    refine filter_eq_nil_of_all_false _ _ ?_
    intro i hi
    simp [hall i hi]
  · intro name
    have hnd2 : keysNodup
        (invalidateFileCache (updateFileCache env st F) F).methodNameCache := by
      rw [hs2]
      exact keysNodup_remove F _ hnd1
    rw [update_lookup env _ F symbols hprov hnd2 name, hlook2 name,
      update_lookup env st F symbols hprov hnd name]
    rw [List.filter_append, filter_idem, gather_filter_out]
    simp

/-- C1: every node of a backward tree produced by `analyzeMethodCalls` with
configured depth `d` has depth at most `d` and the root has depth 0; every
node of a forward result has depth at most `d` and the top-level calls sit
at relative depth 0; and `setMaxDepth` always clamps the configured depth
into 1..10. -/
theorem claim_C1_depth_bound :
    (∀ (env : BackEnv) (d : Nat) (methodSymbol : DocumentSymbol) (uri : Uri)
        (t : MethodCallInfo),
      (analyzeMethodCalls env d methodSymbol uri).1 = some t →
      DepthLe d t ∧ t.depth = 0)
    ∧ (∀ (env : FwdEnv) (d : Nat) (methodSymbol : DocumentSymbol) (uri : Uri)
        (res : InternalCallAnalysisResult),
      (analyzeInternalMethodCalls env d methodSymbol uri).1 = some res →
      FDepthLeL d res.calls ∧ TopDepthIs 0 res.calls)
    ∧ (∀ depth : Int, 1 ≤ setMaxDepth depth ∧ setMaxDepth depth ≤ 10) := by
  refine ⟨?_, ?_, ?_⟩
  · intro env d methodSymbol uri t h
    simp only [analyzeMethodCalls] at h
    cases h
    constructor
    · refine findMethodReferencesWorkspace_DepthLe env d d 0 _ [] (by omega) ?_
      exact DepthLe_new_child d _ _ _ _ _ (Nat.zero_le d)
    · rw [findMethodReferencesWorkspace_depthField]
      rfl
  · intro env d methodSymbol uri res h
    simp only [analyzeInternalMethodCalls] at h
    rcases hdoc : env.docText uri.toStr with e | document
    · rw [hdoc] at h
      cases h
    · rw [hdoc] at h
      simp only at h
      rcases hrun : findMethodCallsInText env d
          (getTextInRange document methodSymbol.range) methodSymbol.range uri 0 []
        with ⟨er, vis⟩
      rw [hrun] at h
      cases er with
      | error e => cases h
      | ok internalCalls =>
        simp only at h
        cases h
        constructor
        · exact findMethodCallsInText_FDepthLeL env d d 0 _ _ uri [] _ _
            (by omega) hrun
        · exact findMethodCallsInText_TopDepthIs env d 0 _ _ uri [] _ _ hrun
  · intro depth
    unfold setMaxDepth
    omega

def trivUri : Uri := ⟨str ("file:///ws/x.ts"), str ("/ws/x.ts")⟩

set_option maxRecDepth 400000 in
/-- C1 witness: the depth-bound theorem applied to a concrete backward run
(no references), a concrete forward run (the `top` chain at depth 4) and
the clamp at input 0. -/
theorem claim_C1_witness :
    (DepthLe 3 (MethodCallInfo.mk (str ("m")) trivUri ⟨⟨0, 0⟩, ⟨0, 1⟩⟩ none 0 [])
      ∧ (MethodCallInfo.mk (str ("m")) trivUri ⟨⟨0, 0⟩, ⟨0, 1⟩⟩ none 0 []).depth = 0)
    ∧ (FDepthLeL 4 chainCalls ∧ TopDepthIs 0 chainCalls)
    ∧ (1 ≤ setMaxDepth 0 ∧ setMaxDepth 0 ≤ 10) := by
  refine ⟨claim_C1_depth_bound.1 envTrivB 3 trivSym trivUri _ rfl, ?_,
    claim_C1_depth_bound.2.2 0⟩
  exact claim_C1_depth_bound.2.1 envT 4 topSym uriT
    { rootMethod := str ("top"), rootUri := uriT, rootRange := ⟨⟨1, 2⟩, ⟨1, 5⟩⟩,
      calls := chainCalls, totalCallsFound := 4, analysisDepth := 4 } rfl

set_option maxRecDepth 400000 in
/-- C2: in the workspace where `open` is a leaf, `openNow` calls `open` and
`quickStart` calls `openNow`, backward analysis of `open` at `maxDepth = 2`
produces exactly the root `open` (depth 0) with one child `openNow`
(depth 1) with one child `quickStart` (depth 2). -/
theorem claim_C2_backward_scenario :
    (analyzeMethodCalls envC2 2 openSym uriEx).1 = some backChainTree := rfl

set_option maxRecDepth 400000 in
/-- C5: with `alpha` and `beta` calling each other, forward analysis of
`alpha` terminates for every `maxDepth ≥ 3` (the analyzer is a total
function returning `some`), and the node for the second occurrence of
`alpha` on the traversal path — the depth-2 node inside `cycleCalls` — is
marked `isRecursive = true` with an empty children list. -/
theorem claim_C5_cycle_termination (d : Nat) (hd : 3 ≤ d) :
    (analyzeInternalMethodCalls envAB d alphaSym uriAB).1 =
      some { rootMethod := str ("alpha"), rootUri := uriAB,
             rootRange := ⟨⟨1, 2⟩, ⟨1, 7⟩⟩, calls := cycleCalls,
             totalCallsFound := 3, analysisDepth := d } := by
  obtain ⟨k, rfl⟩ : ∃ k, d = k + 3 := ⟨d - 3, by omega⟩
  rfl

set_option maxRecDepth 400000 in
/-- C5 witness: the cycle theorem at `maxDepth = 3`. -/
theorem claim_C5_witness :
    (analyzeInternalMethodCalls envAB 3 alphaSym uriAB).1 =
      some { rootMethod := str ("alpha"), rootUri := uriAB,
             rootRange := ⟨⟨1, 2⟩, ⟨1, 7⟩⟩, calls := cycleCalls,
             totalCallsFound := 3, analysisDepth := 3 } :=
  claim_C5_cycle_termination 3 (by decide)

/-- C3 counterexample: a nested function `inner` (kind Function) strictly
inside `outer` also encloses the reference, yet `findContainingMethod`
attributes the reference to the shallower `outer`, while the
specification's deepest-wins rule picks `inner`. -/
theorem claim_C3_counterexample :
    findContainingMethod cexRange cexForest = some cexOuter ∧
    deepestContainingMethod cexRange cexForest = some cexInner ∧
    InForest cexInner cexForest ∧
    isMethodSymbol cexInner = true ∧
    cexInner.range.containsRange cexRange = true ∧
    cexOuter.range.containsRange cexInner.range = true ∧
    cexInner.range.containsRange cexOuter.range = false ∧
    cexInner.name ≠ cexOuter.name := by
  refine ⟨rfl, rfl, ?_, rfl, rfl, rfl, rfl, by decide⟩
  exact InForest.head cexInner cexOuter .nil
    (InSymbol.child cexInner (str ("outer")) .Function ⟨⟨0, 0⟩, ⟨10, 1⟩⟩
      ⟨⟨0, 9⟩, ⟨0, 14⟩⟩ (.cons cexInner .nil)
      (InForest.head cexInner cexInner .nil (InSymbol.here cexInner)))

/-- C3 amended: the caller attributed to a surviving reference is the first
symbol in preorder of kind Method/Function/Constructor whose range contains
the reference (children of a matching symbol are not examined, so the
shallowest match wins, not the deepest); the attributed symbol is always an
enclosing method-like symbol of the searched forest, and the search returns
nothing exactly when no method-like symbol of the forest encloses the
reference — in which case the reference contributes no child. -/
theorem claim_C3_amended_containing_method :
    (∀ (r : Range) (symbols : Symbols) (s : DocumentSymbol),
      findContainingMethod r symbols = some s →
      isMethodSymbol s = true ∧ s.range.containsRange r = true ∧ InForest s symbols)
    ∧ (∀ (r : Range) (symbols : Symbols),
      findContainingMethod r symbols = none →
      ∀ s : DocumentSymbol, InForest s symbols → isMethodSymbol s = true →
        s.range.containsRange r = false) :=
  ⟨fun r symbols s h => findContainingMethod_sound r symbols s h,
   fun r symbols h s hin hms => findContainingMethod_none r symbols h s hin hms⟩

/-- C3 witness: the amended theorem applied to the reference inside
`openNow` of the concrete workspace, and to an empty forest. -/
theorem claim_C3_witness :
    (isMethodSymbol openNowSym = true
      ∧ openNowSym.range.containsRange ⟨⟨5, 9⟩, ⟨5, 13⟩⟩ = true
      ∧ InForest openNowSym symsEx)
    ∧ (∀ s : DocumentSymbol, InForest s Symbols.nil → isMethodSymbol s = true →
        s.range.containsRange cexRange = false) :=
  ⟨claim_C3_amended_containing_method.1 ⟨⟨5, 9⟩, ⟨5, 13⟩⟩ symsEx openNowSym rfl,
   claim_C3_amended_containing_method.2 cexRange .nil rfl⟩

/-- C4 counterexample: with definitions of `helper` in `/a/bx.ts` and
`/a/b/real.ts` and context file `/a/b/c.ts`, the resolver returns the
`/a/bx.ts` candidate because the raw-string prefix test accepts the
directory `/a/b` as a prefix of `/a/bx.ts`, even though only
`/a/b/real.ts` actually lies under the directory `/a/b`; no candidate
shares the context file, so the spec's rule would pick `/a/b/real.ts`. -/
theorem claim_C4_counterexample :
    findMethodDefinition cexTieMnc (str ("helper")) (some cexCtxUri) = some cexBx ∧
    liesUnderDir cexBx.filePath (dirOfPath cexCtxUri.fsPath) = false ∧
    cexNested ∈ findMethodsByName cexTieMnc (str ("helper")) ∧
    liesUnderDir cexNested.filePath (dirOfPath cexCtxUri.fsPath) = true ∧
    (∀ i ∈ findMethodsByName cexTieMnc (str ("helper")),
      i.uri.toStr ≠ cexCtxUri.toStr) := by
  refine ⟨rfl, rfl, ?_, rfl, ?_⟩
  · show cexNested ∈ [cexBx, cexNested]
    exact List.mem_cons_of_mem _ (List.mem_cons_self _ _)
  · intro i hi
    have hi' : i ∈ [cexBx, cexNested] := hi
    rcases hi' with _ | ⟨_, h⟩
    · decide
    · rcases h with _ | ⟨_, h⟩
      · decide
      · cases h

/-- C4 amended: definition resolution for a method name returns none on no
candidate, the unique candidate on exactly one, and with several candidates
and a context file it prefers (in order) the first candidate in the context
file itself, then the first whose file path has the context file's
directory string as a raw character-prefix (no path-separator check), then
the first candidate overall; without a context file it returns the first
candidate. -/
theorem claim_C4_amended_definition_resolution :
    ∀ (mnc : MethodNameCache) (name : Str) (ctx : Option Uri),
      (findMethodsByName mnc name = [] → findMethodDefinition mnc name ctx = none)
      ∧ (∀ m, findMethodsByName mnc name = [m] →
          findMethodDefinition mnc name ctx = some m)
      ∧ (∀ c m, ctx = some c → 2 ≤ (findMethodsByName mnc name).length →
          (findMethodsByName mnc name).find? (fun i => i.uri.toStr == c.toStr)
            = some m →
          findMethodDefinition mnc name ctx = some m)
      ∧ (∀ c m, ctx = some c → 2 ≤ (findMethodsByName mnc name).length →
          (findMethodsByName mnc name).find? (fun i => i.uri.toStr == c.toStr)
            = none →
          (findMethodsByName mnc name).find?
            (fun i => (dirOfPath c.fsPath).isPrefixOf i.filePath) = some m →
          findMethodDefinition mnc name ctx = some m)
      ∧ (∀ c, ctx = some c → 2 ≤ (findMethodsByName mnc name).length →
          (findMethodsByName mnc name).find? (fun i => i.uri.toStr == c.toStr)
            = none →
          (findMethodsByName mnc name).find?
            (fun i => (dirOfPath c.fsPath).isPrefixOf i.filePath) = none →
          findMethodDefinition mnc name ctx = (findMethodsByName mnc name).head?)
      ∧ (ctx = none → 2 ≤ (findMethodsByName mnc name).length →
          findMethodDefinition mnc name ctx = (findMethodsByName mnc name).head?) := by
  intro mnc name ctx
  rcases hms : findMethodsByName mnc name with _ | ⟨m0, ms⟩
  · refine ⟨fun _ => ?_, fun m hm => ?_, fun c m _ hl _ => ?_,
      fun c m _ hl _ _ => ?_, fun c _ hl _ _ => ?_, fun _ hl => ?_⟩
    · simp [findMethodDefinition, hms]
    · simp at hm
    all_goals simp at hl
  · rcases ms with _ | ⟨m1, rest⟩
    · refine ⟨fun h => ?_, fun m hm => ?_, fun c m _ hl _ => ?_,
        fun c m _ hl _ _ => ?_, fun c _ hl _ _ => ?_, fun _ hl => ?_⟩
      · simp at h
      · simp at hm
        simp [findMethodDefinition, hms, hm]
      all_goals simp [List.length] at hl
    · refine ⟨fun h => ?_, fun m hm => ?_, fun c m hc _ hfind => ?_,
        fun c m hc _ hsame hdir => ?_, fun c hc _ hsame hdir => ?_,
        fun hc _ => ?_⟩
      · simp at h
      · simp at hm
      · subst hc
        simp only [findMethodDefinition, hms, hfind]
      · subst hc
        simp only [findMethodDefinition, hms, hsame, hdir]
      · subst hc
        simp only [findMethodDefinition, hms, hsame, hdir, List.head?]
      · subst hc
        simp only [findMethodDefinition, hms, List.head?]

/-- C4 witness: the amended theorem's clauses evaluated on the
counterexample cache (directory-prefix clause selects the raw-prefix
match) and on an empty cache. -/
theorem claim_C4_witness :
    findMethodDefinition cexTieMnc (str ("helper")) (some cexCtxUri) = some cexBx ∧
    findMethodDefinition [] (str ("helper")) (some cexCtxUri) = none := by
  constructor
  · exact (claim_C4_amended_definition_resolution cexTieMnc (str ("helper"))
      (some cexCtxUri)).2.2.2.1 cexCtxUri cexBx rfl (by decide) rfl rfl
  · exact (claim_C4_amended_definition_resolution [] (str ("helper"))
      (some cexCtxUri)).1 rfl

set_option maxRecDepth 400000 in
/-- C7 counterexample: the callee's file `/g.ts` fails to open, yet forward
analysis rooted in the openable `/f.ts` still returns a result — a partial
tree where the `callee` node is resolved but has no children — instead of
returning null. -/
theorem claim_C7_counterexample :
    envFG.docText uriG.toStr = Except.error () ∧
    (analyzeInternalMethodCalls envFG 3 callerSym uriF).1 =
      some { rootMethod := str ("caller"), rootUri := uriF,
             rootRange := ⟨⟨1, 2⟩, ⟨1, 8⟩⟩, calls := partialCalls,
             totalCallsFound := 2, analysisDepth := 3 } := ⟨rfl, rfl⟩

/-- C7 amended: the backward analyzer never returns null (every error is
swallowed per file and analysis always yields a root tree); the forward
analyzer returns null exactly when the root method's own document cannot
be opened — failures opening callee documents during expansion are caught
inside the recursion and only prune that subtree. -/
theorem claim_C7_amended_error_containment :
    (∀ (env : BackEnv) (d : Nat) (s : DocumentSymbol) (u : Uri),
      ∃ t, (analyzeMethodCalls env d s u).1 = some t)
    ∧ (∀ (env : FwdEnv) (d : Nat) (s : DocumentSymbol) (u : Uri),
      env.docText u.toStr = Except.error () →
      (analyzeInternalMethodCalls env d s u).1 = none)
    ∧ (∀ (env : FwdEnv) (d : Nat) (s : DocumentSymbol) (u : Uri) (txt : Str),
      env.docText u.toStr = Except.ok txt →
      ∃ r, (analyzeInternalMethodCalls env d s u).1 = some r) := by
  refine ⟨fun env d s u => ⟨_, rfl⟩, fun env d s u hdoc => ?_, ?_⟩
  · simp only [analyzeInternalMethodCalls, hdoc]
  · intro env d s u txt hdoc
    obtain ⟨l, v, hrun⟩ := findMethodCallsInText_ok env d
      (getTextInRange txt s.range) s.range u 0 [] txt hdoc
    simp only [analyzeInternalMethodCalls, hdoc, hrun]
    exact ⟨_, rfl⟩

set_option maxRecDepth 400000 in
/-- C7 witness: the amended theorem at the two-file scenario — backward
always yields a tree; forward rooted at the unopenable `/g.ts` yields
none; forward rooted at the openable `/f.ts` yields a result. -/
theorem claim_C7_witness :
    (∃ t, (analyzeMethodCalls envTrivB 3 trivSym trivUri).1 = some t)
    ∧ (analyzeInternalMethodCalls envFG 3 calleeSym uriG).1 = none
    ∧ (∃ r, (analyzeInternalMethodCalls envFG 3 callerSym uriF).1 = some r) :=
  ⟨claim_C7_amended_error_containment.1 envTrivB 3 trivSym trivUri,
   claim_C7_amended_error_containment.2.1 envFG 3 calleeSym uriG rfl,
   claim_C7_amended_error_containment.2.2 envFG 3 callerSym uriF textF rfl⟩

/-- C8: both analysis services are deterministic in the modelled state —
re-running an analysis with the state produced by a first run yields the
same result, because the result depends only on the configured maxDepth
and the per-run inputs (the visited set is reset at the start of each
run). -/
theorem claim_C8_determinism (benv : BackEnv) (bsvc : MethodCallServiceState)
    (fenv : FwdEnv) (fsvc : InternalServiceState) (s : DocumentSymbol) (u : Uri) :
    (serviceAnalyzeMethodCalls benv (serviceAnalyzeMethodCalls benv bsvc s u).2 s u).1
      = (serviceAnalyzeMethodCalls benv bsvc s u).1
    ∧ (serviceAnalyzeInternalMethodCalls fenv
        (serviceAnalyzeInternalMethodCalls fenv fsvc s u).2 s u).1
      = (serviceAnalyzeInternalMethodCalls fenv fsvc s u).1 := ⟨rfl, rfl⟩

set_option maxRecDepth 400000 in
/-- C6 witness: the round-trip theorem applied to the concrete example
workspace, starting from the empty cache, projected to the restoration
clause at the name `open`. -/
theorem claim_C6_witness :
    findMethodsByName
      (updateFileCache cacheEnvEx
        (invalidateFileCache (updateFileCache cacheEnvEx emptyCacheState uriEx) uriEx)
        uriEx).methodNameCache (str ("open")) =
    findMethodsByName
      (updateFileCache cacheEnvEx emptyCacheState uriEx).methodNameCache
      (str ("open")) :=
  (claim_C6_cache_invalidation_round_trip cacheEnvEx emptyCacheState uriEx symsEx
    rfl (by simp [keysNodup, emptyCacheState])).2.2 (str ("open"))

set_option maxRecDepth 400000 in
/-- C9: when the forward traversal reaches depth 0 the per-text expansion
stops after recording at most one node (the depth guard breaks the match
loop after the first recorded call), and in the `top → mid → lefty/righty`
workspace at `maxDepth = 4` the analysis returns exactly the expected
chain with both leaves as siblings at depth 2. -/
theorem claim_C9_depth_zero_truncation :
    (∀ (env : FwdEnv) (d : Nat) (s : DocumentSymbol) (u : Uri)
        (res : InternalCallAnalysisResult),
      (analyzeInternalMethodCalls env d s u).1 = some res →
      res.calls.length ≤ 1)
    ∧ (analyzeInternalMethodCalls envT 4 topSym uriT).1 =
        some { rootMethod := str ("top"), rootUri := uriT,
               rootRange := ⟨⟨1, 2⟩, ⟨1, 5⟩⟩, calls := chainCalls,
               totalCallsFound := 4, analysisDepth := 4 } := by
  constructor
  · intro env d s u res h
    rcases hdoc : env.docText u.toStr with _ | doc
    · simp [analyzeInternalMethodCalls, hdoc] at h
    · simp only [analyzeInternalMethodCalls, hdoc] at h
      rcases hrun : findMethodCallsInText env d (getTextInRange doc s.range)
          s.range u 0 [] with ⟨e, vis⟩
      cases e with
      | error err => rw [hrun] at h; simp at h
      | ok l =>
        rw [hrun] at h
        simp only [Option.some.injEq] at h
        subst h
        exact findMethodCallsInText_length_zero env d (getTextInRange doc s.range)
          s.range u [] l vis hrun
  · rfl

/-- C9 witness: the truncation bound applied to the concrete chain run —
the root-level call list has at most one entry. -/
theorem claim_C9_witness : chainCalls.length ≤ 1 :=
  claim_C9_depth_zero_truncation.1 envT 4 topSym uriT
    { rootMethod := str ("top"), rootUri := uriT, rootRange := ⟨⟨1, 2⟩, ⟨1, 5⟩⟩,
      calls := chainCalls, totalCallsFound := 4, analysisDepth := 4 }
    claim_C9_depth_zero_truncation.2

set_option maxRecDepth 400000 in
/-- C10: the forward visited set only grows (a method key visited anywhere
in the traversal stays visited for the rest of the run, across sibling
branches), and in the diamond workspace `rootm → ff,gg` with both calling
`hh`, the second branch's `hh` node is marked recursive and not expanded
while the first branch's `hh` node is expanded normally. -/
theorem claim_C10_global_visited_set :
    (∀ (env : FwdEnv) (fuel : Nat) (text : Str) (br : Range) (uri : Uri)
        (cd : Nat) (vis : FVis) (k : FwdKey),
      k ∈ vis → k ∈ (findMethodCallsInText env fuel text br uri cd vis).2)
    ∧ (analyzeInternalMethodCalls envR 4 rootmSym uriR).1 =
        some { rootMethod := str ("rootm"), rootUri := uriR,
               rootRange := ⟨⟨1, 2⟩, ⟨1, 7⟩⟩, calls := diamondCalls,
               totalCallsFound := 5, analysisDepth := 4 } :=
  ⟨fun env fuel text br uri cd vis k hk =>
    findMethodCallsInText_vis_mono env fuel text br uri cd vis k hk, rfl⟩

/-- C10 witness: visited-set monotonicity at a concrete already-visited
key and an empty text. -/
theorem claim_C10_witness :
    FwdKey.unknownKey (str ("x")) ∈
      (findMethodCallsInText envT 0 (str ("z")) ⟨⟨0, 0⟩, ⟨0, 0⟩⟩ uriT 0
        [FwdKey.unknownKey (str ("x"))]).2 :=
  claim_C10_global_visited_set.1 envT 0 (str ("z")) ⟨⟨0, 0⟩, ⟨0, 0⟩⟩ uriT 0
    [FwdKey.unknownKey (str ("x"))] (FwdKey.unknownKey (str ("x")))
    (List.mem_singleton.mpr rfl)
